import Mathlib

/-!
# Verification of the currency-input normalizer of `munifinanzas`

Shallow embedding of the client-side money-input logic in
`src/finanzas/static/finanzas/js/movimiento_form.js`:

* `getNumericString` / `normalizeToEnglish` — the locale-aware parser that turns
  free-form typed text into a canonical decimal string (`toCanonical` of the spec);
* `formatEsAr` — the display formatter (`toDisplay` of the spec), which delegates
  to `Number(...)` (IEEE-754 binary64) and `Intl.NumberFormat("es-AR", ...)`;
* the visible/shadow field pair managed by `setupMoneyInput`;
* the `applyState`/`clearField` logic of `setupSectionToggle`.

JavaScript strings are embedded as `List Char`; JS string library calls
(`replace` with the concrete regexes appearing in the source, `split`,
`lastIndexOf`, `includes`, `padEnd`, `slice`) are embedded as the corresponding
executable list functions below.
-/

/-! ## JS string primitives used by the source -/

/-- JS regex class `\d` (resp. `[0-9]`), i.e. the ASCII digits `'0'..'9'`. -/
def jsIsDigit (c : Char) : Bool := 48 ≤ c.toNat && c.toNat ≤ 57

/-- The character class `[\d.,]` kept by `getNumericString`
    (and by the `input`-handler regex `[^0-9.,]`, which is the same class). -/
def isNumChar (c : Char) : Bool := jsIsDigit c || c == '.' || c == ','

/-- `String.prototype.lastIndexOf` restricted to a single character:
    index of the last occurrence, `-1` if absent. -/
def jsLastIndexOf (c : Char) : List Char → Int
  | [] => -1
  | a :: t =>
    let r := jsLastIndexOf c t
    if 0 ≤ r then r + 1 else if a == c then 0 else -1

/-- `String.prototype.split` on a single-character separator.
    `jsSplit c l` always returns at least one (possibly empty) part. -/
def jsSplit (c : Char) : List Char → List (List Char)
  | [] => [[]]
  | a :: t =>
    match jsSplit c t with
    | [] => [[]]
    | h :: r => if a == c then [] :: h :: r else (a :: h) :: r

/-- `s.padEnd(2, "0")`. -/
def padEnd2 (l : List Char) : List Char := l ++ List.replicate (2 - l.length) '0'

/-! ## `normalizeToEnglish` (spec operation `toCanonical`) -/

/-- `getNumericString`: `String(text || "").replace(/[^\d.,]/g, "")`. -/
def getNumericString (text : List Char) : List Char := text.filter isNumChar

/-- The `intRaw.replace(/\D/g, "") || "0"` computation of the integer part:
    keep the digits, defaulting to `"0"` when none are left. -/
def intOf (intRaw : List Char) : List Char :=
  if intRaw.filter jsIsDigit = [] then ['0'] else intRaw.filter jsIsDigit

/-- The `decRaw.replace(/\D/g, "").padEnd(2, "0").slice(0, 2)` computation of the
    fraction part: keep the digits, right-pad with `'0'` to two, truncate to two. -/
def fracOf (decRaw : List Char) : List Char := (padEnd2 (decRaw.filter jsIsDigit)).take 2

/-- The block
    `const parts = cleaned.split(sep); const intRaw = parts[0] || "";
     const decRaw = parts[1] || ""; ... return intPart + "." + dec;`
    which the source repeats verbatim in every branch of `normalizeToEnglish`. -/
def splitAtSep (sep : Char) (cleaned : List Char) : List Char :=
  let parts := jsSplit sep cleaned
  intOf (parts.headD []) ++ '.' :: fracOf (parts.getD 1 [])

/-- Body of `normalizeToEnglish` after the initial
    `text = getNumericString(text)` reassignment. -/
def normCore (text : List Char) : List Char :=
  if text = [] then []
  else
    let hasComma := text.contains ','
    let hasDot := text.contains '.'
    -- Caso 1: tiene coma y punto
    if hasComma && hasDot then
      let lastComma := jsLastIndexOf ',' text
      let lastDot := jsLastIndexOf '.' text
      if lastComma > lastDot then
        -- es-AR: 1.234,56 => coma decimal
        splitAtSep ',' (text.filter (· != '.'))
      else
        -- en-US: 1,234.56 => punto decimal
        splitAtSep '.' (text.filter (· != ','))
    -- Caso 2: solo coma (es-AR decimal)
    else if hasComma && !hasDot then
      splitAtSep ',' (text.filter (· != '.'))
    -- Caso 3: solo punto
    else if hasDot && !hasComma then
      let lastDot := jsLastIndexOf '.' text
      let decimalsCount : Int := (text.length : Int) - lastDot - 1
      if 0 < decimalsCount ∧ decimalsCount ≤ 2 then
        splitAtSep '.' (text.filter (· != ','))
      else
        intOf text ++ ('.' :: '0' :: '0' :: [])
    -- Caso 4: sin separadores -> entero
    else
      intOf text ++ ('.' :: '0' :: '0' :: [])

/-- `normalizeToEnglish` (the spec's `toCanonical`). -/
def normalizeToEnglish (text : List Char) : List Char :=
  normCore (getNumericString text)

/-! ## Claim C1

The claim states `toCanonical("abc") == "0.00"`.  On the source this is false:
`getNumericString("abc")` is `""` and `normalizeToEnglish` returns `""` as soon
as the stripped text is empty (`if (text === "") return "";`, line 200), so the
result is the empty string, not `"0.00"`.  The `"0.00"` degradation only occurs
when at least one digit, dot or comma survives stripping (e.g. input `"x.y"`).
-/

/-- C1 counterexample: at input `"abc"` the code returns `""`, while the claim
    predicts `"0.00"`; the claim as stated is false. -/
theorem spec_c1_cex :
    normalizeToEnglish "abc".toList = "".toList ∧
    normalizeToEnglish "abc".toList ≠ "0.00".toList := by
  decide

/-- C1 (amended): `toCanonical("") == ""` and `toCanonical("abc") == ""` — when
    stripping leaves no digit, dot or comma, the result is the empty string
    (the best-effort `"0.00"` value arises only when a separator survives,
    e.g. `toCanonical("x.y") == "0.00"`). -/
theorem spec_c1 :
    normalizeToEnglish "".toList = "".toList ∧
    normalizeToEnglish "abc".toList = "".toList ∧
    normalizeToEnglish "x.y".toList = "0.00".toList := by
  decide

/-! ## Toolkit: facts about the embedded JS string primitives -/

theorem contains_eq_true_iff {l : List Char} {c : Char} : l.contains c = true ↔ c ∈ l :=
  List.elem_iff

theorem contains_eq_false {l : List Char} {c : Char} (h : ∀ a ∈ l, a ≠ c) :
    l.contains c = false := by
  rw [← Bool.not_eq_true, contains_eq_true_iff]
  intro hc
  exact h c hc rfl

theorem jsLastIndexOf_cons (c a : Char) (t : List Char) :
    jsLastIndexOf c (a :: t) =
      if 0 ≤ jsLastIndexOf c t then jsLastIndexOf c t + 1
      else if a == c then 0 else -1 := rfl

theorem jsLastIndexOf_nonneg_iff {c : Char} : ∀ {l : List Char},
    0 ≤ jsLastIndexOf c l ↔ c ∈ l
  | [] => by simp [jsLastIndexOf]
  | a :: t => by
    have ih : 0 ≤ jsLastIndexOf c t ↔ c ∈ t := jsLastIndexOf_nonneg_iff
    rw [jsLastIndexOf_cons, List.mem_cons]
    by_cases h0 : 0 ≤ jsLastIndexOf c t
    · rw [if_pos h0]
      constructor
      · intro _
        exact Or.inr (ih.1 h0)
      · intro _
        omega
    · rw [if_neg h0]
      by_cases hac : a = c
      · have hbe : (a == c) = true := by simp [hac]
        rw [hbe]
        simp only [if_true]
        constructor
        · intro _
          exact Or.inl hac.symm
        · intro _
          norm_num
      · have hbe : (a == c) = false := by simp [hac]
        rw [hbe]
        simp only [Bool.false_eq_true, if_false]
        constructor
        · intro h
          omega
        · rintro (h | h)
          · exact absurd h.symm hac
          · exact absurd (ih.2 h) h0

theorem jsLastIndexOf_of_not_mem {c : Char} {l : List Char} (h : c ∉ l) :
    jsLastIndexOf c l = -1 := by
  induction l with
  | nil => rfl
  | cons a t ih =>
    have ht : c ∉ t := fun hm => h (List.mem_cons_of_mem _ hm)
    have ha : (a == c) = false := by
      simp only [beq_eq_false_iff_ne, ne_eq]
      exact fun e => h (e ▸ List.mem_cons_self a t)
    rw [jsLastIndexOf_cons, ih ht, if_neg (by norm_num), ha]
    simp

theorem jsLastIndexOf_lt_length {c : Char} : ∀ {l : List Char},
    jsLastIndexOf c l < (l.length : Int)
  | [] => by simp [jsLastIndexOf]
  | a :: t => by
    have ih : jsLastIndexOf c t < (t.length : Int) := jsLastIndexOf_lt_length
    rw [jsLastIndexOf_cons]
    simp only [List.length_cons]
    by_cases h0 : 0 ≤ jsLastIndexOf c t
    · rw [if_pos h0]
      push_cast
      omega
    · rw [if_neg h0]
      split <;> push_cast <;> omega

theorem jsLastIndexOf_append {c : Char} {B : List Char} : ∀ {A : List Char},
    jsLastIndexOf c (A ++ B) =
      if c ∈ B then (A.length : Int) + jsLastIndexOf c B else jsLastIndexOf c A
  | [] => by
    by_cases hB : c ∈ B
    · simp [hB]
    · simp [hB, jsLastIndexOf_of_not_mem hB, jsLastIndexOf]
  | a :: A => by
    have ih := jsLastIndexOf_append (c := c) (B := B) (A := A)
    show jsLastIndexOf c (a :: (A ++ B)) = _
    rw [jsLastIndexOf_cons, ih]
    by_cases hB : c ∈ B
    · have h0 : 0 ≤ jsLastIndexOf c B := jsLastIndexOf_nonneg_iff.2 hB
      simp only [hB, if_true]
      rw [if_pos (show (0 : Int) ≤ (A.length : Int) + jsLastIndexOf c B by omega)]
      simp only [List.length_cons]
      push_cast
      ring
    · simp only [hB, if_false]
      rw [jsLastIndexOf_cons]

theorem jsSplit_ne_nil {c : Char} : ∀ {l : List Char}, jsSplit c l ≠ []
  | [] => by simp [jsSplit]
  | a :: t => by
    rcases h : jsSplit c t with _ | ⟨h1, r⟩
    · exact absurd h jsSplit_ne_nil
    · simp only [jsSplit, h]
      split <;> simp

theorem jsSplit_head {c : Char} : ∀ {l : List Char},
    ∃ r, jsSplit c l = l.takeWhile (· != c) :: r
  | [] => ⟨[], rfl⟩
  | a :: t => by
    obtain ⟨r, hr⟩ := jsSplit_head (c := c) (l := t)
    simp only [jsSplit, hr, List.takeWhile_cons]
    by_cases hac : a = c
    · subst hac
      simp
    · have : (a != c) = true := by simp [hac]
      simp [this, hac]

theorem jsSplit_of_not_mem {c : Char} {l : List Char} (h : c ∉ l) :
    jsSplit c l = [l] := by
  induction l with
  | nil => rfl
  | cons a t ih =>
    have ht : c ∉ t := fun hm => h (List.mem_cons_of_mem _ hm)
    have ha : a ≠ c := fun e => h (e ▸ List.mem_cons_self a t)
    simp [jsSplit, ih ht, ha]

theorem jsSplit_append {c : Char} {B : List Char} : ∀ {A : List Char}, c ∉ A →
    jsSplit c (A ++ c :: B) = A :: jsSplit c B
  | [], _ => by
    simp only [List.nil_append, jsSplit]
    rcases h : jsSplit c B with _ | ⟨h1, r⟩
    · exact absurd h jsSplit_ne_nil
    · simp
  | a :: A, h => by
    have hA : c ∉ A := fun hm => h (List.mem_cons_of_mem _ hm)
    have ha : a ≠ c := fun e => h (e ▸ List.mem_cons_self a A)
    have ih := jsSplit_append (c := c) (B := B) hA
    simp [jsSplit, ih, ha]

theorem takeWhile_all {p : Char → Bool} {l : List Char} (h : ∀ a ∈ l, p a = true) :
    l.takeWhile p = l := by
  induction l with
  | nil => rfl
  | cons a t ih =>
    rw [List.takeWhile_cons, if_pos (h a (List.mem_cons_self a t)),
      ih fun x hx => h x (List.mem_cons_of_mem _ hx)]

/-- Decomposition of a list at the first occurrence of `c`. -/
theorem first_occurrence_decomp {c : Char} {l : List Char} (h : c ∈ l) :
    l = l.takeWhile (· != c) ++ c :: (l.dropWhile (· != c)).drop 1 ∧
      c ∉ l.takeWhile (· != c) := by
  constructor
  · induction l with
    | nil => cases h
    | cons a t ih =>
      by_cases hac : a = c
      · subst hac
        simp [List.takeWhile_cons, List.dropWhile_cons]
      · have ht : c ∈ t := by
          rcases List.mem_cons.1 h with h1 | h2
          · exact absurd h1.symm hac
          · exact h2
        have : (a != c) = true := by simp [hac]
        simpa [List.takeWhile_cons, List.dropWhile_cons, this] using ih ht
  · intro hc
    have := List.mem_takeWhile_imp hc
    simp at this

/-! ## The first-separator normal form

Every branch of `normalizeToEnglish` computes `splitAtSep sep cleaned`; whenever
`sep` occurs in `cleaned`, that computation equals the following description:
the digits before the *first* `sep` (defaulting to `"0"`), then `'.'`, then the
digits strictly between the first and the second `sep` (all digits after the
first `sep` when it occurs only once), right-padded with `'0'` to two digits and
truncated to two. -/
def firstSepForm (sep : Char) (cleaned : List Char) : List Char :=
  intOf (cleaned.takeWhile (· != sep)) ++
    '.' :: fracOf (((cleaned.dropWhile (· != sep)).drop 1).takeWhile (· != sep))

theorem splitAtSep_eq_firstSepForm {sep : Char} {cleaned : List Char}
    (h : sep ∈ cleaned) : splitAtSep sep cleaned = firstSepForm sep cleaned := by
  obtain ⟨hdec, hnm⟩ := first_occurrence_decomp h
  set A := cleaned.takeWhile (· != sep) with hA
  set B := (cleaned.dropWhile (· != sep)).drop 1 with hB
  obtain ⟨r, hr⟩ := jsSplit_head (c := sep) (l := B)
  have hsplit : jsSplit sep cleaned = A :: B.takeWhile (· != sep) :: r := by
    rw [hdec, jsSplit_append hnm, hr]
  unfold splitAtSep firstSepForm
  rw [hsplit]
  rfl

/-! ## Shape of the normalizer's output -/

theorem intOf_ne_nil (x : List Char) : intOf x ≠ [] := by
  unfold intOf
  split
  · simp
  · assumption

theorem intOf_digits {x : List Char} : ∀ c ∈ intOf x, jsIsDigit c = true := by
  unfold intOf
  split
  · intro c hc
    simp only [List.mem_singleton] at hc
    subst hc
    decide
  · intro c hc
    exact List.of_mem_filter hc

theorem intOf_of_digits {x : List Char} (hne : x ≠ [])
    (hd : ∀ c ∈ x, jsIsDigit c = true) : intOf x = x := by
  unfold intOf
  rw [List.filter_eq_self.2 hd, if_neg hne]

theorem fracOf_length (x : List Char) : (fracOf x).length = 2 := by
  unfold fracOf padEnd2
  rw [List.length_take, List.length_append, List.length_replicate]
  omega

theorem fracOf_digits {x : List Char} : ∀ c ∈ fracOf x, jsIsDigit c = true := by
  intro c hc
  have hc' := List.take_subset _ _ hc
  unfold padEnd2 at hc'
  rcases List.mem_append.1 hc' with h | h
  · exact List.of_mem_filter h
  · rw [List.eq_of_mem_replicate h]
    decide

theorem fracOf_of_two_digits {x : List Char} (hlen : x.length = 2)
    (hd : ∀ c ∈ x, jsIsDigit c = true) : fracOf x = x := by
  unfold fracOf padEnd2
  rw [List.filter_eq_self.2 hd, hlen]
  simp
  omega

/-- Boolean matcher for the canonical shape `\d+\.\d{2}` (viewed from the right:
    two digits, a dot, then a non-empty run of digits). -/
def canonicalB (l : List Char) : Bool :=
  match l.reverse with
  | b :: a :: d :: i0 :: irev =>
    d == '.' && jsIsDigit a && jsIsDigit b && (i0 :: irev).all jsIsDigit
  | _ => false

theorem canonicalB_intro {I F : List Char} (hIne : I ≠ [])
    (hI : ∀ c ∈ I, jsIsDigit c = true) (hFlen : F.length = 2)
    (hF : ∀ c ∈ F, jsIsDigit c = true) : canonicalB (I ++ '.' :: F) = true := by
  obtain ⟨a, b, rfl⟩ := List.length_eq_two.1 hFlen
  rcases hIr : I.reverse with _ | ⟨i0, irev⟩
  · exact absurd (List.reverse_eq_nil_iff.1 hIr) hIne
  have hrev : (I ++ '.' :: [a, b]).reverse = b :: a :: '.' :: i0 :: irev := by
    simp [hIr]
  unfold canonicalB
  rw [hrev]
  simp only [Bool.and_eq_true, beq_self_eq_true, true_and, List.all_eq_true]
  refine ⟨⟨hF a (by simp), hF b (by simp)⟩, ?_⟩
  intro c hc
  refine hI c (List.mem_reverse.1 ?_)
  rw [hIr]
  exact hc

/-- Canonical shape of every `splitAtSep` result. -/
theorem splitAtSep_shape (sep : Char) (cleaned : List Char) :
    ∃ I F, splitAtSep sep cleaned = I ++ '.' :: F ∧ I ≠ [] ∧
      (∀ c ∈ I, jsIsDigit c = true) ∧ F.length = 2 ∧
      (∀ c ∈ F, jsIsDigit c = true) := by
  refine ⟨intOf ((jsSplit sep cleaned).headD []),
    fracOf ((jsSplit sep cleaned).getD 1 []), rfl, intOf_ne_nil _, intOf_digits,
    fracOf_length _, fracOf_digits⟩

/-- Either the stripped text is empty (and the result is `""`), or the result is
    a canonical decimal `I ++ "." ++ F` with `I` nonempty digits, `F` two digits. -/
theorem normCore_shape (t : List Char) :
    (t = [] ∧ normCore t = []) ∨
      ∃ I F, normCore t = I ++ '.' :: F ∧ I ≠ [] ∧
        (∀ c ∈ I, jsIsDigit c = true) ∧ F.length = 2 ∧
        (∀ c ∈ F, jsIsDigit c = true) := by
  by_cases ht : t = []
  · left
    exact ⟨ht, by rw [ht]; rfl⟩
  · right
    simp only [normCore, if_neg ht]
    have hint : ∃ I F, intOf t ++ ('.' :: '0' :: '0' :: []) = I ++ '.' :: F ∧
        I ≠ [] ∧ (∀ c ∈ I, jsIsDigit c = true) ∧ F.length = 2 ∧
        (∀ c ∈ F, jsIsDigit c = true) := by
      refine ⟨intOf t, ['0', '0'], rfl, intOf_ne_nil _, intOf_digits, rfl, ?_⟩
      decide
    split
    · split
      · exact splitAtSep_shape _ _
      · exact splitAtSep_shape _ _
    · split
      · exact splitAtSep_shape _ _
      · split
        · split
          · exact splitAtSep_shape _ _
          · exact hint
        · exact hint

/-! ## Claim C5 -/

/-- C5: `toCanonical` is total and deterministic (it is a pure Lean function of
    the input text), and for every input the result is either the empty string —
    exactly when stripping leaves no character — or a string matching
    `\d+\.\d{2}`: a non-empty all-digit integer part, `'.'`, and exactly two
    digits. -/
theorem spec_c5 (t : List Char) :
    (getNumericString t = [] ∧ normalizeToEnglish t = []) ∨
      canonicalB (normalizeToEnglish t) = true := by
  unfold normalizeToEnglish
  rcases normCore_shape (getNumericString t) with ⟨h1, h2⟩ | ⟨I, F, hIF, hIne, hI, hFlen, hF⟩
  · exact Or.inl ⟨h1, h2⟩
  · right
    rw [hIF]
    exact canonicalB_intro hIne hI hFlen hF

/-! ## Canonical outputs are fixed points -/

theorem jsIsDigit_isNumChar {c : Char} (h : jsIsDigit c = true) : isNumChar c = true := by
  simp [isNumChar, h]

theorem jsIsDigit_ne_comma {c : Char} (h : jsIsDigit c = true) : c ≠ ',' := by
  intro e
  rw [e] at h
  exact absurd h (by decide)

theorem jsIsDigit_ne_dot {c : Char} (h : jsIsDigit c = true) : c ≠ '.' := by
  intro e
  rw [e] at h
  exact absurd h (by decide)

theorem filter_ne_comma_of_digits {l : List Char} (h : ∀ c ∈ l, jsIsDigit c = true) :
    l.filter (· != ',') = l :=
  List.filter_eq_self.2 fun a ha => bne_iff_ne.2 (jsIsDigit_ne_comma (h a ha))

/-- Evaluation of `splitAtSep` on an exact decomposition `I ++ sep :: F` with
    `sep` occurring in neither part. -/
theorem splitAtSep_exact {sep : Char} {I F : List Char} (hI : sep ∉ I)
    (hF : sep ∉ F) : splitAtSep sep (I ++ sep :: F) = intOf I ++ '.' :: fracOf F := by
  unfold splitAtSep
  rw [jsSplit_append hI, jsSplit_of_not_mem hF]
  rfl

/-- A canonical decimal `I ++ "." ++ F` (nonempty digit run, dot, two digits) is
    a fixed point of `normalizeToEnglish`: stripping keeps it, the dot-only
    branch fires with `decimalsCount = 2`, and splitting at the dot returns the
    two runs unchanged. -/
theorem norm_canonical {I F : List Char} (hIne : I ≠ [])
    (hI : ∀ c ∈ I, jsIsDigit c = true) (hFlen : F.length = 2)
    (hF : ∀ c ∈ F, jsIsDigit c = true) :
    normalizeToEnglish (I ++ '.' :: F) = I ++ '.' :: F := by
  have hdotI : '.' ∉ I := fun hm => jsIsDigit_ne_dot (hI '.' hm) rfl
  have hdotF : '.' ∉ F := fun hm => jsIsDigit_ne_dot (hF '.' hm) rfl
  have hstrip : getNumericString (I ++ '.' :: F) = I ++ '.' :: F := by
    apply List.filter_eq_self.2
    intro a ha
    rcases List.mem_append.1 ha with h | h
    · exact jsIsDigit_isNumChar (hI a h)
    · rcases List.mem_cons.1 h with h | h
      · rw [h]
        decide
      · exact jsIsDigit_isNumChar (hF a h)
  have hne : I ++ '.' :: F ≠ [] := by simp
  have hcomma : (I ++ '.' :: F).contains ',' = false := by
    apply contains_eq_false
    intro a ha
    rcases List.mem_append.1 ha with h | h
    · exact jsIsDigit_ne_comma (hI a h)
    · rcases List.mem_cons.1 h with h | h
      · rw [h]
        decide
      · exact jsIsDigit_ne_comma (hF a h)
  have hdot : (I ++ '.' :: F).contains '.' = true :=
    contains_eq_true_iff.2 (List.mem_append.2 (Or.inr (List.mem_cons_self _ _)))
  have hlast : jsLastIndexOf '.' (I ++ '.' :: F) = (I.length : Int) := by
    rw [jsLastIndexOf_append, if_pos (List.mem_cons_self _ _), jsLastIndexOf_cons,
      jsLastIndexOf_of_not_mem hdotF, if_neg (by norm_num)]
    norm_num
  unfold normalizeToEnglish
  rw [hstrip]
  simp only [normCore, if_neg hne, hcomma, hdot, Bool.false_and, Bool.true_and,
    Bool.and_false, Bool.and_true, Bool.not_false, Bool.not_true,
    Bool.false_eq_true, if_false, if_true, hlast]
  have hdc : (((I ++ '.' :: F).length : Int) - (I.length : Int) - 1) = 2 := by
    rw [List.length_append, List.length_cons, hFlen]
    push_cast
    ring
  rw [hdc]
  rw [if_pos (by norm_num)]
  have hfilter : (I ++ '.' :: F).filter (· != ',') = I ++ '.' :: F := by
    apply List.filter_eq_self.2
    intro a ha
    apply bne_iff_ne.2
    rcases List.mem_append.1 ha with h | h
    · exact jsIsDigit_ne_comma (hI a h)
    · rcases List.mem_cons.1 h with h | h
      · rw [h]
        decide
      · exact jsIsDigit_ne_comma (hF a h)
  rw [hfilter, splitAtSep_exact hdotI hdotF, intOf_of_digits hIne hI,
    fracOf_of_two_digits hFlen hF]

/-! ## Claim C7 -/

/-- C7: idempotence — for every input string `x`,
    `toCanonical(toCanonical(x)) == toCanonical(x)`: the output of
    `normalizeToEnglish` (empty, or a canonical `\d+\.\d{2}` string) is a fixed
    point when re-fed as input. -/
theorem spec_c7 (x : List Char) :
    normalizeToEnglish (normalizeToEnglish x) = normalizeToEnglish x := by
  have hx : normalizeToEnglish x = normCore (getNumericString x) := rfl
  rcases normCore_shape (getNumericString x) with ⟨_, h2⟩ | ⟨I, F, hIF, hIne, hI, hFlen, hF⟩
  · rw [hx, h2]
    decide
  · rw [hx, hIF]
    exact norm_canonical hIne hI hFlen hF

/-! ## Claims C3, C4, C8: the claimed last-separator readings

Claims C3 and C4 say the separator occurrence treated as the decimal point is
the one with the greater **rightmost** index (the last occurrence), with all
digits after it forming the fraction; claim C8 says the digits after "the"
comma form the fraction.  The code instead always splits at the **first**
occurrence of the chosen separator kind and uses `parts[1]` — the text strictly
between the first and second occurrence — as the fraction source.  On inputs
with a repeated decimal separator the readings disagree.  The `claimedCk`
functions below transcribe the claims' own words for the counterexamples. -/

/-- Decimal point at the *last* occurrence of `sep` (the reading of claims C3
    and C4): integer part from the digits before it, fraction from all the
    digits after it. -/
def lastSepForm (sep : Char) (cleaned : List Char) : List Char :=
  intOf (cleaned.take (jsLastIndexOf sep cleaned).toNat) ++
    '.' :: fracOf (cleaned.drop ((jsLastIndexOf sep cleaned).toNat + 1))

/-- Claim C3's described result for inputs whose stripped form has both
    separators: the separator kind with the greater rightmost index is the
    decimal point (at that rightmost occurrence), the other kind is removed. -/
def claimedC3 (input : List Char) : List Char :=
  if jsLastIndexOf ',' (getNumericString input) >
      jsLastIndexOf '.' (getNumericString input) then
    lastSepForm ',' ((getNumericString input).filter (· != '.'))
  else
    lastSepForm '.' ((getNumericString input).filter (· != ','))

/-- Claim C4's described result for dot-only stripped forms: if 1 or 2
    characters follow the last dot, that dot is the decimal separator and those
    digits are the (padded) fraction; otherwise the whole text is an integer. -/
def claimedC4 (input : List Char) : List Char :=
  if 0 < ((getNumericString input).length : Int) -
        jsLastIndexOf '.' (getNumericString input) - 1 ∧
      ((getNumericString input).length : Int) -
        jsLastIndexOf '.' (getNumericString input) - 1 ≤ 2 then
    lastSepForm '.' (getNumericString input)
  else
    intOf (getNumericString input) ++ ('.' :: '0' :: '0' :: [])

/-- Claim C8's described result for comma-only stripped forms: the digits
    before the comma, then the digits after the comma padded/truncated to 2. -/
def claimedC8 (input : List Char) : List Char :=
  intOf ((getNumericString input).takeWhile (· != ',')) ++
    '.' :: fracOf (((getNumericString input).dropWhile (· != ',')).drop 1)

/-- C3 counterexample: the stripped form of `"1.2,3,4"` contains both
    separators and the comma has the greater rightmost index, but the code
    yields `"12.30"` (split at the *first* comma, fraction from between the
    first two commas) while the claim's description yields `"123.40"`. -/
theorem spec_c3_cex :
    normalizeToEnglish "1.2,3,4".toList ≠ claimedC3 "1.2,3,4".toList ∧
    normalizeToEnglish "1.2,3,4".toList = "12.30".toList ∧
    claimedC3 "1.2,3,4".toList = "123.40".toList := by
  decide

/-- C4 counterexample: the stripped form of `"1.2.34"` is dot-only with exactly
    2 characters after the last dot, but the code yields `"1.20"` (split at the
    *first* dot) while the claim's description (fraction = digits after the
    last dot) yields `"12.34"`. -/
theorem spec_c4_cex :
    normalizeToEnglish "1.2.34".toList ≠ claimedC4 "1.2.34".toList ∧
    normalizeToEnglish "1.2.34".toList = "1.20".toList ∧
    claimedC4 "1.2.34".toList = "12.34".toList := by
  decide

/-- C8 counterexample: the stripped form of `"1,2,3"` is comma-only, but the
    code yields `"1.20"` (fraction only from between the first two commas)
    while the claim's description (digits after the comma) yields `"1.23"`. -/
theorem spec_c8_cex :
    normalizeToEnglish "1,2,3".toList ≠ claimedC8 "1,2,3".toList ∧
    normalizeToEnglish "1,2,3".toList = "1.20".toList ∧
    claimedC8 "1,2,3".toList = "1.23".toList := by
  decide

/-- C8 (amended): for every input whose stripped form `s` contains `','` and no
    `'.'`, the *first* comma is the decimal separator: the result is the digits
    before it (`"0"` if none), then `'.'`, then the digits strictly between the
    first and the second comma (all digits after the first comma when it is
    unique), right-padded with `'0'` to two digits and truncated to two. -/
theorem spec_c8 (t : List Char) (hc : ',' ∈ getNumericString t)
    (hd : '.' ∉ getNumericString t) :
    normalizeToEnglish t = firstSepForm ',' (getNumericString t) := by
  set s := getNumericString t with hs
  have hsne : s ≠ [] := List.ne_nil_of_mem hc
  have hcomma : s.contains ',' = true := contains_eq_true_iff.2 hc
  have hdot : s.contains '.' = false := by
    apply contains_eq_false
    intro a ha e
    exact hd (e ▸ ha)
  have hfilter : s.filter (· != '.') = s :=
    List.filter_eq_self.2 fun a ha => bne_iff_ne.2 fun e => hd (e ▸ ha)
  have hnorm : normalizeToEnglish t = normCore s := rfl
  rw [hnorm]
  simp only [normCore, if_neg hsne, hcomma, hdot, Bool.true_and, Bool.and_false,
    Bool.not_false, Bool.and_true, Bool.false_eq_true, if_false, if_true]
  rw [hfilter]
  exact splitAtSep_eq_firstSepForm hc

/-- C3 (amended): for every input whose stripped form `s` contains both `','`
    and `'.'`, the separator *kind* with the greater rightmost index is the
    decimal kind and every occurrence of the other kind is removed as grouping;
    the decimal point is then the *first* occurrence of the decimal kind: the
    result is the digits before it (`"0"` if none), then `'.'`, then the digits
    strictly between the first and the second occurrence (all digits after the
    first occurrence when it is unique), padded/truncated to two. -/
theorem spec_c3 (t : List Char) (hc : ',' ∈ getNumericString t)
    (hd : '.' ∈ getNumericString t) :
    normalizeToEnglish t =
      if jsLastIndexOf ',' (getNumericString t) >
          jsLastIndexOf '.' (getNumericString t) then
        firstSepForm ',' ((getNumericString t).filter (· != '.'))
      else
        firstSepForm '.' ((getNumericString t).filter (· != ',')) := by
  set s := getNumericString t with hs
  have hsne : s ≠ [] := List.ne_nil_of_mem hc
  have hcomma : s.contains ',' = true := contains_eq_true_iff.2 hc
  have hdot : s.contains '.' = true := contains_eq_true_iff.2 hd
  have hnorm : normalizeToEnglish t = normCore s := rfl
  rw [hnorm]
  simp only [normCore, if_neg hsne, hcomma, hdot, Bool.and_self, if_true]
  by_cases hcmp : jsLastIndexOf ',' s > jsLastIndexOf '.' s
  · rw [if_pos hcmp, if_pos hcmp]
    apply splitAtSep_eq_firstSepForm
    exact List.mem_filter.2 ⟨hc, by decide⟩
  · rw [if_neg hcmp, if_neg hcmp]
    apply splitAtSep_eq_firstSepForm
    exact List.mem_filter.2 ⟨hd, by decide⟩

/-- C4 (amended): for every input whose stripped form `s` contains `'.'` and no
    `','`: if 1 or 2 characters follow the last dot, the *first* dot acts as
    the decimal separator — the result is the digits before it (`"0"` if
    none), then `'.'`, then the digits strictly between the first and the
    second dot (all digits after the first dot when it is unique),
    padded/truncated to two; if 0 or more than 2 characters follow the last
    dot, the entire text is read as an integer (all digits concatenated) with
    fraction `"00"`. -/
theorem spec_c4 (t : List Char) (hd : '.' ∈ getNumericString t)
    (hc : ',' ∉ getNumericString t) :
    normalizeToEnglish t =
      if 0 < ((getNumericString t).length : Int) -
            jsLastIndexOf '.' (getNumericString t) - 1 ∧
          ((getNumericString t).length : Int) -
            jsLastIndexOf '.' (getNumericString t) - 1 ≤ 2 then
        firstSepForm '.' (getNumericString t)
      else
        intOf (getNumericString t) ++ ('.' :: '0' :: '0' :: []) := by
  set s := getNumericString t with hs
  have hsne : s ≠ [] := List.ne_nil_of_mem hd
  have hdot : s.contains '.' = true := contains_eq_true_iff.2 hd
  have hcomma : s.contains ',' = false := by
    apply contains_eq_false
    intro a ha e
    exact hc (e ▸ ha)
  have hfilter : s.filter (· != ',') = s :=
    List.filter_eq_self.2 fun a ha => bne_iff_ne.2 fun e => hc (e ▸ ha)
  have hnorm : normalizeToEnglish t = normCore s := rfl
  rw [hnorm]
  simp only [normCore, if_neg hsne, hcomma, hdot, Bool.false_and, Bool.and_false,
    Bool.not_false, Bool.true_and, Bool.and_true, Bool.false_eq_true, if_false,
    if_true]
  by_cases hdc : 0 < (s.length : Int) - jsLastIndexOf '.' s - 1 ∧
      (s.length : Int) - jsLastIndexOf '.' s - 1 ≤ 2
  · rw [if_pos hdc, if_pos hdc, hfilter]
    exact splitAtSep_eq_firstSepForm hd
  · rw [if_neg hdc, if_neg hdc]

/-- C3 witness: the amended statement at the concrete input `"1.234,56"`
    (comma decimal, dots removed as grouping; result `"1234.56"`). -/
theorem spec_c3_witness :
    normalizeToEnglish "1.234,56".toList =
      if jsLastIndexOf ',' (getNumericString "1.234,56".toList) >
          jsLastIndexOf '.' (getNumericString "1.234,56".toList) then
        firstSepForm ',' ((getNumericString "1.234,56".toList).filter (· != '.'))
      else
        firstSepForm '.' ((getNumericString "1.234,56".toList).filter (· != ',')) :=
  spec_c3 "1.234,56".toList (by decide) (by decide)

/-- C4 witness: the amended statement at the concrete input `"12.5"`
    (one trailing digit after the dot; result `"12.50"`). -/
theorem spec_c4_witness :
    normalizeToEnglish "12.5".toList =
      if 0 < ((getNumericString "12.5".toList).length : Int) -
            jsLastIndexOf '.' (getNumericString "12.5".toList) - 1 ∧
          ((getNumericString "12.5".toList).length : Int) -
            jsLastIndexOf '.' (getNumericString "12.5".toList) - 1 ≤ 2 then
        firstSepForm '.' (getNumericString "12.5".toList)
      else
        intOf (getNumericString "12.5".toList) ++ ('.' :: '0' :: '0' :: []) :=
  spec_c4 "12.5".toList (by decide) (by decide)

/-- C8 witness: the amended statement at the concrete input `"1234,5"`
    (comma decimal, single padded fraction digit; result `"1234.50"`). -/
theorem spec_c8_witness :
    normalizeToEnglish "1234,5".toList = firstSepForm ',' (getNumericString "1234,5".toList) :=
  spec_c8 "1234,5".toList (by decide) (by decide)

/-! ## `formatEsAr` (spec operation `toDisplay`)

`formatEsAr` is the source function

```
function formatEsAr(eng) {
  if (!eng) return "";
  const n = Number(eng);
  if (!isFinite(n)) return eng;
  return new Intl.NumberFormat("es-AR",
    { minimumFractionDigits: 2, maximumFractionDigits: 2 }).format(n);
}
```

Its two platform calls are embedded as executable rational-arithmetic models:

* `Number(eng)` — the ECMAScript `StringNumericLiteral` conversion, restricted
  to the unsigned decimal literals (`digits`, `digits.digits`) that
  `normalizeToEnglish` produces, followed by IEEE-754 binary64
  round-to-nearest, ties-to-even (`roundDoubleChecked`; every binary64 value is
  an exact rational, `none` models NaN/Infinity, for which the source returns
  `eng` unchanged);
* `.format(n)` — ECMA-402 `Intl.NumberFormat` with the CLDR `es-AR` locale
  data: `","` as decimal separator, `"."` as grouping separator in groups of
  three, minimum grouping digits 2 (so grouping only from 5 integer digits
  on), and exactly two fraction digits obtained by rounding the exact value of
  the double half-up (`ToRawFixed`). -/

/-- The character of a decimal digit value. -/
def natDigitChar : ℕ → Char
  | 0 => '0'
  | 1 => '1'
  | 2 => '2'
  | 3 => '3'
  | 4 => '4'
  | 5 => '5'
  | 6 => '6'
  | 7 => '7'
  | 8 => '8'
  | 9 => '9'
  | _ => '0'

/-- The decimal digit value of a digit character. -/
def charDigitVal (c : Char) : ℕ := c.toNat - 48

/-- Numeric value of a big-endian digit string. -/
def charsToNat (l : List Char) : ℕ := Nat.ofDigits 10 (l.reverse.map charDigitVal)

/-- Little-endian base-10 digits, fuel-structured so that the kernel can
    evaluate it (`natDigitsF n n` agrees with `Nat.digits 10 n`). -/
def natDigitsF : ℕ → ℕ → List ℕ
  | 0, _ => []
  | _ + 1, 0 => []
  | f + 1, n + 1 => (n + 1) % 10 :: natDigitsF f ((n + 1) / 10)

/-- Big-endian decimal digit string of a natural number (`"0"` for 0). -/
def natToChars (n : ℕ) : List Char :=
  if n = 0 then ['0'] else ((natDigitsF n n).map natDigitChar).reverse

/-- `Number(s)` on an unsigned decimal string literal: the exact rational value
    of `digits`, `digits.digits`, `.digits` or `digits.`; `none` (NaN) on
    anything else; `Number("") = 0`.  (Signs, exponents, hex/octal/binary
    literals and whitespace cannot occur in the canonical strings this model is
    applied to.) -/
def jsParseDecimal (l : List Char) : Option ℚ :=
  if l = [] then some 0
  else
    match jsSplit '.' l with
    | [a] => if a.all jsIsDigit then some (charsToNat a) else none
    | [a, b] =>
      if (a ≠ [] ∨ b ≠ []) ∧ a.all jsIsDigit ∧ b.all jsIsDigit then
        some ((charsToNat a : ℚ) + (charsToNat b : ℚ) / 10 ^ b.length)
      else none
    | _ => none

/-- Round to the nearest integer, ties to the even integer. -/
def rhe (x : ℚ) : ℤ :=
  if x - ⌊x⌋ < 1 / 2 then ⌊x⌋
  else if 1 / 2 < x - ⌊x⌋ then ⌊x⌋ + 1
  else if ⌊x⌋ % 2 = 0 then ⌊x⌋ else ⌊x⌋ + 1

/-- Fuelled `⌊log₂ n⌋` (for `1 ≤ n ≤ fuel`). -/
def natLog2F : ℕ → ℕ → ℕ
  | 0, _ => 0
  | f + 1, n => if 2 ≤ n then natLog2F f (n / 2) + 1 else 0

/-- Fuelled search for the least `m` with `de ≤ nu * 2 ^ m`. -/
def findMF : ℕ → ℕ → ℕ → ℕ
  | 0, _, _ => 0
  | f + 1, nu, de => if de ≤ nu then 0 else findMF f (2 * nu) de + 1

/-- `⌊log₂ q⌋` for a positive rational, computed by kernel-reducible search. -/
def flog2 (q : ℚ) : ℤ :=
  if 1 ≤ q then (natLog2F ⌊q⌋.toNat ⌊q⌋.toNat : ℤ)
  else -(findMF q.den q.num.toNat q.den : ℤ)

/-- IEEE-754 binary64 rounding (round to nearest, ties to even) of an exact
    rational: the mantissa is `|q|` scaled into `[2^52, 2^53)` (clamped at the
    subnormal exponent `-1074`), rounded with `rhe`; `none` models overflow to
    an infinity.  The result is the exact rational value of the double. -/
def roundDoubleChecked (q : ℚ) : Option ℚ :=
  if q = 0 then some 0
  else
    let e : ℤ := max (flog2 |q| - 52) (-1074)
    let d : ℚ := (rhe (|q| / 2 ^ e) : ℚ) * 2 ^ e
    if d < 2 ^ 1024 then some (if q < 0 then -d else d) else none

/-- `Number(s)` for the strings in this development's scope: decimal parse,
    then binary64 rounding; `none` models a non-finite result. -/
def jsNumber (l : List Char) : Option ℚ := (jsParseDecimal l).bind roundDoubleChecked

/-- Insert `'.'` after every three characters of a reversed digit string. -/
def groupRevF : ℕ → List Char → List Char
  | 0, l => l
  | f + 1, a :: b :: c :: d :: rest => a :: b :: c :: '.' :: groupRevF f (d :: rest)
  | _ + 1, l => l

/-- Group a big-endian digit string with `'.'` in groups of three from the
    right (the CLDR `es-AR` grouping separator). -/
def groupThrees (ds : List Char) : List Char := (groupRevF ds.length ds.reverse).reverse

/-- Integer-part rendering with CLDR `es-AR` grouping: groups of three
    separated by `'.'`, applied only from 5 digits on
    (`minimumGroupingDigits = 2`). -/
def intlGroupEsAr (n : ℕ) : List Char :=
  if 5 ≤ (natToChars n).length then groupThrees (natToChars n) else natToChars n

/-- The two fraction digits of a cent count. -/
def intlFracTwo (m : ℕ) : List Char := [natDigitChar (m / 10 % 10), natDigitChar (m % 10)]

/-- `Intl.NumberFormat("es-AR", {minimumFractionDigits: 2,
    maximumFractionDigits: 2}).format` on a non-negative double value: round
    the exact value to a whole number of cents (half-up, ECMA-402
    `ToRawFixed`), then grouped integer part, `','`, two fraction digits. -/
def intlFormatEsArAbs (d : ℚ) : List Char :=
  intlGroupEsAr ((⌊d * 100 + 1 / 2⌋).toNat / 100) ++
    ',' :: intlFracTwo (⌊d * 100 + 1 / 2⌋).toNat

/-- `Intl.NumberFormat("es-AR", ...).format` on any double value. -/
def intlFormatEsAr (d : ℚ) : List Char :=
  if d < 0 then '-' :: intlFormatEsArAbs (-d) else intlFormatEsArAbs d

/-- `formatEsAr` (the spec's `toDisplay`). -/
def formatEsAr (eng : List Char) : List Char :=
  if eng = [] then []
  else
    match jsNumber eng with
    | none => eng
    | some d => intlFormatEsAr d

/-! ## Digit strings and natural numbers -/

theorem charToNat_inj {a b : Char} (h : a.toNat = b.toNat) : a = b := by
  apply Char.ext
  exact UInt32.ext h

theorem jsIsDigit_bounds {c : Char} (h : jsIsDigit c = true) :
    48 ≤ c.toNat ∧ c.toNat ≤ 57 := by
  simpa [jsIsDigit, Bool.and_eq_true, decide_eq_true_eq] using h

theorem natDigitChar_charDigitVal {c : Char} (h : jsIsDigit c = true) :
    natDigitChar (charDigitVal c) = c := by
  obtain ⟨h1, h2⟩ := jsIsDigit_bounds h
  unfold charDigitVal
  have hca : c.toNat = 48 ∨ c.toNat = 49 ∨ c.toNat = 50 ∨ c.toNat = 51 ∨
      c.toNat = 52 ∨ c.toNat = 53 ∨ c.toNat = 54 ∨ c.toNat = 55 ∨
      c.toNat = 56 ∨ c.toNat = 57 := by
    omega
  rcases hca with e|e|e|e|e|e|e|e|e|e <;>
    (rw [e]; exact charToNat_inj (by rw [e]; decide))

theorem charDigitVal_natDigitChar {d : ℕ} (h : d < 10) :
    charDigitVal (natDigitChar d) = d := by
  interval_cases d <;> decide

theorem jsIsDigit_natDigitChar {d : ℕ} (h : d < 10) :
    jsIsDigit (natDigitChar d) = true := by
  interval_cases d <;> decide

theorem charDigitVal_lt {c : Char} (h : jsIsDigit c = true) : charDigitVal c < 10 := by
  obtain ⟨h1, h2⟩ := jsIsDigit_bounds h
  unfold charDigitVal
  omega

theorem charDigitVal_ne_zero {c : Char} (h : jsIsDigit c = true) (hc : c ≠ '0') :
    charDigitVal c ≠ 0 := by
  obtain ⟨h1, _⟩ := jsIsDigit_bounds h
  unfold charDigitVal
  intro e
  have h48 : c.toNat = 48 := by omega
  exact hc (charToNat_inj (by rw [h48]; decide))

theorem getLast_eq_of_concat {α : Type} {l A : List α} {x : α}
    (hform : l = A ++ [x]) : ∀ (h : l ≠ []), l.getLast h = x := by
  subst hform
  intro h
  exact List.getLast_concat _

theorem natDigitsF_eq : ∀ (f n : ℕ), n ≤ f → natDigitsF f n = Nat.digits 10 n
  | 0, n, h => by
    have : n = 0 := by omega
    rw [this]
    simp [natDigitsF]
  | f + 1, 0, _ => by simp [natDigitsF]
  | f + 1, n + 1, h => by
    have hdiv : (n + 1) / 10 ≤ f := by
      have := Nat.div_lt_self (Nat.succ_pos n) (by norm_num : 1 < 10)
      omega
    rw [natDigitsF, natDigitsF_eq f ((n + 1) / 10) hdiv,
      Nat.digits_def' (by norm_num : 1 < 10) (Nat.succ_pos n)]

theorem ofDigits_lt : ∀ {L : List ℕ}, (∀ d ∈ L, d < 10) →
    Nat.ofDigits 10 L < 10 ^ L.length
  | [], _ => by simp [Nat.ofDigits]
  | d :: L, h => by
    have ih : Nat.ofDigits 10 L < 10 ^ L.length :=
      ofDigits_lt fun x hx => h x (List.mem_cons_of_mem _ hx)
    have hd : d < 10 := h d (List.mem_cons_self _ _)
    rw [Nat.ofDigits_cons, List.length_cons, pow_succ]
    omega

theorem charsToNat_lt {I : List Char} (h : ∀ c ∈ I, jsIsDigit c = true) :
    charsToNat I < 10 ^ I.length := by
  unfold charsToNat
  have hlen : (I.reverse.map charDigitVal).length = I.length := by simp
  rw [← hlen]
  apply ofDigits_lt
  intro d hd
  obtain ⟨c, hc, rfl⟩ := List.mem_map.1 hd
  exact charDigitVal_lt (h c (List.mem_reverse.1 hc))

theorem charsToNat_append {I F : List Char} :
    charsToNat (I ++ F) = charsToNat F + 10 ^ F.length * charsToNat I := by
  unfold charsToNat
  rw [List.reverse_append, List.map_append, Nat.ofDigits_append]
  simp

/-- Round trip: rendering the value of a digit string without leading zeros
    (or the single digit `"0"`) reproduces the string. -/
theorem natToChars_charsToNat {I : List Char} (hIne : I ≠ [])
    (hI : ∀ c ∈ I, jsIsDigit c = true) (hlz : I = ['0'] ∨ I.headD ' ' ≠ '0') :
    natToChars (charsToNat I) = I := by
  rcases hlz with rfl | hhz
  · decide
  · rcases I with _ | ⟨i0, I'⟩
    · exact absurd rfl hIne
    have hi0 : i0 ≠ '0' := by simpa using hhz
    set L := ((i0 :: I').reverse).map charDigitVal with hL
    have hLdig : ∀ d ∈ L, d < 10 := by
      intro d hd
      obtain ⟨c, hc, rfl⟩ := List.mem_map.1 hd
      exact charDigitVal_lt (hI c (List.mem_reverse.1 hc))
    have hLne : L ≠ [] := by simp [hL]
    have hLlast : ∀ (h : L ≠ []), L.getLast h ≠ 0 := by
      intro h
      have hform : L = I'.reverse.map charDigitVal ++ [charDigitVal i0] := by
        simp [hL]
      rw [getLast_eq_of_concat hform h]
      exact charDigitVal_ne_zero (hI i0 (List.mem_cons_self _ _)) hi0
    have hdig : Nat.digits 10 (Nat.ofDigits 10 L) = L :=
      Nat.digits_ofDigits 10 (by norm_num) L hLdig hLlast
    have hn0 : Nat.ofDigits 10 L ≠ 0 := by
      intro e
      rw [e] at hdig
      simp only [Nat.digits_zero] at hdig
      exact hLne hdig.symm
    have hval : charsToNat (i0 :: I') = Nat.ofDigits 10 L := rfl
    rw [hval]
    unfold natToChars
    rw [if_neg hn0, natDigitsF_eq _ _ le_rfl, hdig, hL, List.map_map]
    have hid : ((i0 :: I').reverse).map (natDigitChar ∘ charDigitVal) =
        (i0 :: I').reverse := by
      conv_rhs => rw [← List.map_id ((i0 :: I').reverse)]
      apply List.map_congr_left
      intro c hc
      exact natDigitChar_charDigitVal (hI c (List.mem_reverse.1 hc))
    rw [hid, List.reverse_reverse]

theorem charsToNat_eq_zero {I : List Char} (hIne : I ≠ [])
    (hI : ∀ c ∈ I, jsIsDigit c = true) (hlz : I = ['0'] ∨ I.headD ' ' ≠ '0')
    (h0 : charsToNat I = 0) : I = ['0'] := by
  have hrt := natToChars_charsToNat hIne hI hlz
  rw [h0] at hrt
  have h00 : natToChars 0 = ['0'] := by decide
  rw [h00] at hrt
  exact hrt.symm

theorem natToChars_digits (n : ℕ) : ∀ c ∈ natToChars n, jsIsDigit c = true := by
  unfold natToChars
  split
  · intro c hc
    simp only [List.mem_singleton] at hc
    rw [hc]
    decide
  · intro c hc
    rw [natDigitsF_eq _ _ le_rfl] at hc
    rw [List.mem_reverse] at hc
    obtain ⟨d, hd, rfl⟩ := List.mem_map.1 hc
    exact jsIsDigit_natDigitChar (Nat.digits_lt_base (by norm_num) hd)

theorem natToChars_ne_nil (n : ℕ) : natToChars n ≠ [] := by
  unfold natToChars
  split
  · simp
  · simp only [ne_eq, List.reverse_eq_nil_iff, List.map_eq_nil_iff]
    rw [natDigitsF_eq _ _ le_rfl]
    simp only [Nat.digits_eq_nil_iff_eq_zero]
    assumption

/-! ## Analysis of the binary64 rounding model -/

theorem rhe_close (x : ℚ) : |(rhe x : ℚ) - x| ≤ 1 / 2 := by
  have hfl : (⌊x⌋ : ℚ) ≤ x := Int.floor_le x
  have hfu : x < ⌊x⌋ + 1 := Int.lt_floor_add_one x
  unfold rhe
  by_cases h1 : x - ⌊x⌋ < 1 / 2
  · rw [if_pos h1, abs_sub_comm, abs_of_nonneg (by linarith)]
    linarith
  · rw [if_neg h1]
    by_cases h2 : 1 / 2 < x - ⌊x⌋
    · rw [if_pos h2]
      push_cast
      rw [abs_of_nonneg (by linarith)]
      linarith
    · rw [if_neg h2]
      split
      · rw [abs_sub_comm, abs_of_nonneg (by linarith)]
        linarith
      · push_cast
        rw [abs_of_nonneg (by linarith)]
        linarith

theorem rhe_nonneg {x : ℚ} (hx : 0 ≤ x) : 0 ≤ rhe x := by
  have hfl : 0 ≤ ⌊x⌋ := Int.floor_nonneg.2 hx
  unfold rhe
  split
  · exact hfl
  · split
    · omega
    · split <;> omega

theorem natLog2F_spec : ∀ (f n : ℕ), 1 ≤ n → n ≤ f →
    2 ^ natLog2F f n ≤ n ∧ n < 2 ^ (natLog2F f n + 1)
  | 0, _, h1, h2 => absurd (le_trans h1 h2) (by norm_num)
  | f + 1, n, h1, h2 => by
    rw [natLog2F]
    by_cases hn : 2 ≤ n
    · rw [if_pos hn]
      have hd1 : 1 ≤ n / 2 := by omega
      have hd2 : n / 2 ≤ f := by omega
      obtain ⟨ih1, ih2⟩ := natLog2F_spec f (n / 2) hd1 hd2
      constructor
      · rw [pow_succ]
        omega
      · rw [pow_succ]
        omega
    · rw [if_neg hn]
      have hn1 : n = 1 := by omega
      rw [hn1]
      norm_num

theorem findMF_spec : ∀ (f nu de : ℕ), 1 ≤ nu → de ≤ nu * 2 ^ f →
    (de ≤ nu * 2 ^ findMF f nu de) ∧
      (findMF f nu de = 0 ∨ nu * 2 ^ (findMF f nu de - 1) < de)
  | 0, nu, de, _, h2 => by
    rw [findMF]
    constructor
    · simpa using h2
    · exact Or.inl rfl
  | f + 1, nu, de, h1, h2 => by
    rw [findMF]
    by_cases hd : de ≤ nu
    · rw [if_pos hd]
      constructor
      · simpa using hd
      · exact Or.inl rfl
    · rw [if_neg hd]
      have h2' : de ≤ 2 * nu * 2 ^ f := by
        rw [pow_succ] at h2
        ring_nf at h2 ⊢
        omega
      obtain ⟨ih1, ih2⟩ := findMF_spec f (2 * nu) de (by omega) h2'
      constructor
      · rw [pow_succ']
        ring_nf
        ring_nf at ih1
        omega
      · right
        simp only [Nat.add_sub_cancel]
        rcases ih2 with hm0 | hlt
        · rw [hm0] at ih1 ⊢
          simp only [pow_zero, mul_one] at ih1 ⊢
          omega
        · rcases Nat.eq_zero_or_pos (findMF f (2 * nu) de) with hm0 | hmp
          · rw [hm0] at ih1 ⊢
            simp only [pow_zero, mul_one] at ih1 ⊢
            omega
          · have hms : findMF f (2 * nu) de - 1 + 1 = findMF f (2 * nu) de := by
              omega
            calc nu * 2 ^ findMF f (2 * nu) de
                = nu * 2 ^ (findMF f (2 * nu) de - 1 + 1) := by rw [hms]
              _ = 2 * nu * 2 ^ (findMF f (2 * nu) de - 1) := by
                  rw [pow_succ]
                  ring
              _ < de := hlt

theorem flog2_spec {q : ℚ} (hq : 0 < q) :
    (2 : ℚ) ^ flog2 q ≤ q ∧ q < 2 ^ (flog2 q + 1) := by
  unfold flog2
  by_cases h1 : 1 ≤ q
  · rw [if_pos h1]
    have hfl0 : (1 : ℤ) ≤ ⌊q⌋ := Int.le_floor.2 (by exact_mod_cast h1)
    set n := ⌊q⌋.toNat with hn
    have hn1 : 1 ≤ n := by omega
    have hncast : (n : ℚ) = (⌊q⌋ : ℚ) := by
      rw [hn]
      exact_mod_cast congrArg Int.cast (Int.toNat_of_nonneg (by omega))
    obtain ⟨hs1, hs2⟩ := natLog2F_spec n n hn1 le_rfl
    constructor
    · calc (2 : ℚ) ^ (natLog2F n n : ℤ) = ((2 ^ natLog2F n n : ℕ) : ℚ) := by
            rw [zpow_natCast]
            push_cast
            rfl
        _ ≤ (n : ℚ) := by exact_mod_cast hs1
        _ ≤ q := by
            rw [hncast]
            exact Int.floor_le q
    · calc q < (⌊q⌋ : ℚ) + 1 := Int.lt_floor_add_one q
        _ = (n : ℚ) + 1 := by rw [hncast]
        _ ≤ ((2 ^ (natLog2F n n + 1) : ℕ) : ℚ) := by
            have : n + 1 ≤ 2 ^ (natLog2F n n + 1) := hs2
            exact_mod_cast this
        _ = 2 ^ ((natLog2F n n : ℤ) + 1) := by
            rw [show (natLog2F n n : ℤ) + 1 = ((natLog2F n n + 1 : ℕ) : ℤ) by push_cast; ring,
              zpow_natCast]
            push_cast
            rfl
  · rw [if_neg h1]
    have hnum : 0 < q.num := Rat.num_pos.2 hq
    set nu := q.num.toNat with hnu
    set de := q.den with hde
    have hnu1 : 1 ≤ nu := by omega
    have hde1 : 0 < de := q.pos
    have hdecast : (0 : ℚ) < (de : ℚ) := by exact_mod_cast hde1
    have hqeq : q = (nu : ℚ) / (de : ℚ) := by
      rw [hnu, hde]
      rw [show ((q.num.toNat : ℕ) : ℚ) = ((q.num : ℤ) : ℚ) by
        exact_mod_cast congrArg Int.cast (Int.toNat_of_nonneg (by omega))]
      exact (Rat.num_div_den q).symm
    have hfuel : de ≤ nu * 2 ^ de := by
      have h2d : de < 2 ^ de := Nat.lt_two_pow de
      calc de ≤ 2 ^ de := le_of_lt h2d
        _ ≤ nu * 2 ^ de := Nat.le_mul_of_pos_left _ (by omega)
    obtain ⟨hf1, hf2⟩ := findMF_spec de nu de hnu1 hfuel
    set m := findMF de nu de with hm
    have hmpos : 1 ≤ m := by
      rcases hf2 with hm0 | _
      · exfalso
        rw [hm0] at hf1
        simp only [pow_zero, mul_one] at hf1
        apply h1
        rw [hqeq]
        rw [le_div_iff hdecast]
        rw [one_mul]
        exact_mod_cast hf1
      · by_contra hc
        have hm0 : m = 0 := by omega
        rw [hm0] at hf1
        simp only [pow_zero, mul_one] at hf1
        apply h1
        rw [hqeq, le_div_iff hdecast, one_mul]
        exact_mod_cast hf1
    have hlt : nu * 2 ^ (m - 1) < de := by
      rcases hf2 with hm0 | h
      · omega
      · exact h
    constructor
    · rw [zpow_neg, zpow_natCast, inv_eq_one_div,
        div_le_iff (by positivity : (0 : ℚ) < 2 ^ m), hqeq, div_mul_eq_mul_div,
        le_div_iff hdecast, one_mul]
      calc (de : ℚ) ≤ ((nu * 2 ^ m : ℕ) : ℚ) := by exact_mod_cast hf1
        _ = (nu : ℚ) * 2 ^ m := by push_cast; ring
    · have hexp : -(m : ℤ) + 1 = -(((m - 1 : ℕ) : ℤ)) := by omega
      rw [hexp, zpow_neg, zpow_natCast, inv_eq_one_div,
        lt_div_iff (by positivity : (0 : ℚ) < 2 ^ (m - 1)), hqeq,
        div_mul_eq_mul_div, div_lt_iff hdecast, one_mul]
      calc (nu : ℚ) * 2 ^ (m - 1) = ((nu * 2 ^ (m - 1) : ℕ) : ℚ) := by
            push_cast
            ring
        _ < (de : ℚ) := by exact_mod_cast hlt

/-- For values in the range produced by canonical strings of at most 13 integer
    digits, the binary64 model rounds to a double within `2^(-10)` of the exact
    value (the unit in the last place is at most `2^(-9)`). -/
theorem roundDoubleChecked_near {q : ℚ} (hlo : 1 / 100 ≤ q) (hhi : q < 2 ^ (44 : ℕ)) :
    ∃ d : ℚ, roundDoubleChecked q = some d ∧ |d - q| ≤ 1 / 1024 ∧ 0 ≤ d := by
  have hqpos : 0 < q := lt_of_lt_of_le (by norm_num) hlo
  have hq0 : q ≠ 0 := ne_of_gt hqpos
  have habs : |q| = q := abs_of_pos hqpos
  obtain ⟨hs1, hs2⟩ := flog2_spec hqpos
  have hflo : -7 ≤ flog2 q := by
    by_contra hc
    push_neg at hc
    have hlt : q < 2 ^ ((-7) : ℤ) :=
      lt_of_lt_of_le hs2 ((zpow_le_zpow_iff_right₀ (by norm_num : (1 : ℚ) < 2)).2 (by omega))
    have h27 : (2 : ℚ) ^ ((-7) : ℤ) = 1 / 128 := by norm_num
    rw [h27] at hlt
    linarith
  have hfhi : flog2 q ≤ 43 := by
    by_contra hc
    push_neg at hc
    have h44 : (2 : ℚ) ^ ((44 : ℕ) : ℤ) ≤ 2 ^ flog2 q :=
      (zpow_le_zpow_iff_right₀ (by norm_num : (1 : ℚ) < 2)).2 (by omega)
    rw [zpow_natCast] at h44
    linarith [le_trans h44 hs1]
  set e : ℤ := flog2 q - 52 with he
  have hemax : max (flog2 q - 52) (-1074) = e := max_eq_left (by omega)
  set x : ℚ := q / 2 ^ e with hx
  set d : ℚ := (rhe x : ℚ) * 2 ^ e with hd
  have hepos : (0 : ℚ) < 2 ^ e := zpow_pos (by norm_num) e
  have hxnn : 0 ≤ x := le_of_lt (div_pos hqpos hepos)
  have hclose : |d - q| ≤ 2 ^ (e - 1) := by
    have hdq : d - q = ((rhe x : ℚ) - x) * 2 ^ e := by
      rw [hd, hx]
      field_simp
    rw [hdq, abs_mul, abs_of_pos hepos]
    calc |(rhe x : ℚ) - x| * 2 ^ e ≤ 1 / 2 * 2 ^ e :=
          mul_le_mul_of_nonneg_right (rhe_close x) (le_of_lt hepos)
      _ = 2 ^ (e - 1) := by
          rw [sub_eq_add_neg, zpow_add₀ (by norm_num : (2 : ℚ) ≠ 0), zpow_neg,
            zpow_one]
          ring
  have hsmall : (2 : ℚ) ^ (e - 1) ≤ 1 / 1024 := by
    calc (2 : ℚ) ^ (e - 1) ≤ 2 ^ ((-10) : ℤ) :=
          (zpow_le_zpow_iff_right₀ (by norm_num : (1 : ℚ) < 2)).2 (by omega)
      _ = 1 / 1024 := by norm_num
  have hdist : |d - q| ≤ 1 / 1024 := le_trans hclose hsmall
  have hdnn : 0 ≤ d := mul_nonneg (by exact_mod_cast rhe_nonneg hxnn) (le_of_lt hepos)
  refine ⟨d, ?_, hdist, hdnn⟩
  have hover : d < 2 ^ (1024 : ℕ) := by
    have hd1 : d ≤ q + 1 / 1024 := by
      rw [abs_le] at hdist
      linarith [hdist.2]
    have hpow : (2 : ℚ) ^ (44 : ℕ) + 1 ≤ 2 ^ (1024 : ℕ) := by
      have h1 : (2 : ℚ) ^ (44 : ℕ) + 1 ≤ 2 ^ (45 : ℕ) := by norm_num
      have h2 : (2 : ℚ) ^ (45 : ℕ) ≤ 2 ^ (1024 : ℕ) :=
        pow_le_pow_right (by norm_num) (by norm_num)
      linarith
    linarith
  simp only [roundDoubleChecked, if_neg hq0, habs, hemax, ← hx, ← hd,
    if_pos hover, if_neg (not_lt.2 (le_of_lt hqpos))]

/-- Recovering the exact cent count from the double: rounding `d * 100` half-up
    yields `N` whenever `d` is within `1/1024` of `N / 100`. -/
theorem floor_cents {N : ℕ} {d : ℚ} (hd : |d - (N : ℚ) / 100| ≤ 1 / 1024) :
    ⌊d * 100 + 1 / 2⌋ = (N : ℤ) := by
  rw [abs_le] at hd
  rw [Int.floor_eq_iff]
  constructor
  · push_cast
    linarith [hd.1]
  · push_cast
    linarith [hd.2]

/-! ## Grouping and formatting lemmas -/

theorem groupRevF_filter : ∀ (f : ℕ) (l : List Char), (∀ c ∈ l, c ≠ '.') →
    (groupRevF f l).filter (· != '.') = l := by
  intro f
  induction f with
  | zero =>
    intro l h
    exact List.filter_eq_self.2 fun a ha => bne_iff_ne.2 (h a ha)
  | succ f ih =>
    intro l h
    rcases l with _ | ⟨a, _ | ⟨b, _ | ⟨c, _ | ⟨d, rest⟩⟩⟩⟩
    · rfl
    · exact List.filter_eq_self.2 fun x hx => bne_iff_ne.2 (h x hx)
    · exact List.filter_eq_self.2 fun x hx => bne_iff_ne.2 (h x hx)
    · exact List.filter_eq_self.2 fun x hx => bne_iff_ne.2 (h x hx)
    · have ha : (a != '.') = true := bne_iff_ne.2 (h a (by simp))
      have hb : (b != '.') = true := bne_iff_ne.2 (h b (by simp))
      have hc : (c != '.') = true := bne_iff_ne.2 (h c (by simp))
      have hrec := ih (d :: rest) fun x hx => h x (by simp at hx ⊢; tauto)
      simp only [groupRevF, List.filter_cons, ha, hb, hc, if_true]
      rw [show (('.' : Char) != '.') = false by decide]
      simp only [Bool.false_eq_true, if_false]
      rw [hrec]

theorem groupRevF_mem : ∀ (f : ℕ) (l : List Char) (x : Char),
    x ∈ groupRevF f l → x ∈ l ∨ x = '.' := by
  intro f
  induction f with
  | zero =>
    intro l x hx
    exact Or.inl hx
  | succ f ih =>
    intro l x hx
    rcases l with _ | ⟨a, _ | ⟨b, _ | ⟨c, _ | ⟨d, rest⟩⟩⟩⟩
    · exact Or.inl hx
    · exact Or.inl hx
    · exact Or.inl hx
    · exact Or.inl hx
    · simp only [groupRevF, List.mem_cons] at hx
      rcases hx with rfl | rfl | rfl | rfl | hx
      · exact Or.inl (by simp)
      · exact Or.inl (by simp)
      · exact Or.inl (by simp)
      · exact Or.inr rfl
      · rcases ih (d :: rest) x hx with hm | he
        · exact Or.inl (by simp at hm ⊢; tauto)
        · exact Or.inr he

theorem groupThrees_filter {ds : List Char} (h : ∀ c ∈ ds, c ≠ '.') :
    (groupThrees ds).filter (· != '.') = ds := by
  unfold groupThrees
  rw [List.filter_reverse, groupRevF_filter _ _ fun c hc => h c (List.mem_reverse.1 hc),
    List.reverse_reverse]

theorem groupThrees_mem {ds : List Char} {x : Char} (hx : x ∈ groupThrees ds) :
    x ∈ ds ∨ x = '.' := by
  unfold groupThrees at hx
  rw [List.mem_reverse] at hx
  rcases groupRevF_mem _ _ _ hx with hm | he
  · exact Or.inl (List.mem_reverse.1 hm)
  · exact Or.inr he

theorem jsParseDecimal_split {I F : List Char} (hIne : I ≠ [])
    (hI : ∀ c ∈ I, jsIsDigit c = true) (hF : ∀ c ∈ F, jsIsDigit c = true) :
    jsParseDecimal (I ++ '.' :: F) =
      some ((charsToNat I : ℚ) + (charsToNat F : ℚ) / 10 ^ F.length) := by
  have hdotI : '.' ∉ I := fun hm => jsIsDigit_ne_dot (hI '.' hm) rfl
  have hdotF : '.' ∉ F := fun hm => jsIsDigit_ne_dot (hF '.' hm) rfl
  unfold jsParseDecimal
  rw [if_neg (by simp : ¬(I ++ '.' :: F = []))]
  rw [jsSplit_append hdotI, jsSplit_of_not_mem hdotF]
  show (if (I ≠ [] ∨ F ≠ []) ∧ I.all jsIsDigit = true ∧ F.all jsIsDigit = true then
      some ((charsToNat I : ℚ) + (charsToNat F : ℚ) / 10 ^ F.length)
    else none) = some ((charsToNat I : ℚ) + (charsToNat F : ℚ) / 10 ^ F.length)
  rw [if_pos ⟨Or.inl hIne, List.all_eq_true.2 hI, List.all_eq_true.2 hF⟩]

theorem jsParseDecimal_canonical {I F : List Char} (hIne : I ≠ [])
    (hI : ∀ c ∈ I, jsIsDigit c = true) (hF : ∀ c ∈ F, jsIsDigit c = true)
    (hFlen : F.length = 2) :
    jsParseDecimal (I ++ '.' :: F) =
      some ((charsToNat I : ℚ) + (charsToNat F : ℚ) / 10 ^ 2) := by
  rw [jsParseDecimal_split hIne hI hF, hFlen]

theorem charsToNat_two {a b : Char} :
    charsToNat [a, b] = 10 * charDigitVal a + charDigitVal b := by
  unfold charsToNat
  simp [Nat.ofDigits_cons, Nat.ofDigits_nil]
  ring

theorem intlFracTwo_of {F : List Char} (hF : ∀ c ∈ F, jsIsDigit c = true)
    (hFlen : F.length = 2) (k : ℕ) :
    intlFracTwo (100 * k + charsToNat F) = F := by
  obtain ⟨a, b, rfl⟩ := List.length_eq_two.1 hFlen
  have ha := hF a (by simp)
  have hb := hF b (by simp)
  have hva : charDigitVal a < 10 := charDigitVal_lt ha
  have hvb : charDigitVal b < 10 := charDigitVal_lt hb
  unfold intlFracTwo
  rw [charsToNat_two]
  have h1 : (100 * k + (10 * charDigitVal a + charDigitVal b)) / 10 % 10 =
      charDigitVal a := by omega
  have h2 : (100 * k + (10 * charDigitVal a + charDigitVal b)) % 10 =
      charDigitVal b := by omega
  rw [h1, h2, natDigitChar_charDigitVal ha, natDigitChar_charDigitVal hb]

/-- Normalizing a formatted string `g ++ "," ++ F` — grouped integer rendering
    `g` (digits and grouping dots, recovering `I` when the dots are removed),
    decimal comma, two fraction digits — returns the canonical `I ++ "." ++ F`. -/
theorem norm_grouped {g I F : List Char} (hgf : g.filter (· != '.') = I)
    (hgc : ∀ c ∈ g, jsIsDigit c = true ∨ c = '.') (hIne : I ≠ [])
    (hI : ∀ c ∈ I, jsIsDigit c = true) (hFlen : F.length = 2)
    (hF : ∀ c ∈ F, jsIsDigit c = true) :
    normalizeToEnglish (g ++ ',' :: F) = I ++ '.' :: F := by
  have hcomF : ',' ∉ F := fun hm => jsIsDigit_ne_comma (hF ',' hm) rfl
  have hdotF : '.' ∉ F := fun hm => jsIsDigit_ne_dot (hF '.' hm) rfl
  have hcomI : ',' ∉ I := fun hm => jsIsDigit_ne_comma (hI ',' hm) rfl
  have hstrip : getNumericString (g ++ ',' :: F) = g ++ ',' :: F := by
    apply List.filter_eq_self.2
    intro a ha
    rcases List.mem_append.1 ha with h | h
    · rcases hgc a h with hd | he
      · exact jsIsDigit_isNumChar hd
      · rw [he]
        decide
    · rcases List.mem_cons.1 h with h | h
      · rw [h]
        decide
      · exact jsIsDigit_isNumChar (hF a h)
  have hne : g ++ ',' :: F ≠ [] := by simp
  have hfilterdot : (g ++ ',' :: F).filter (· != '.') = I ++ ',' :: F := by
    rw [List.filter_append, hgf]
    congr 1
    apply List.filter_eq_self.2
    intro a ha
    apply bne_iff_ne.2
    rcases List.mem_cons.1 ha with h | h
    · rw [h]
      decide
    · exact jsIsDigit_ne_dot (hF a h)
  have hsplitc : splitAtSep ',' (I ++ ',' :: F) = I ++ '.' :: F := by
    rw [splitAtSep_exact hcomI hcomF, intOf_of_digits hIne hI,
      fracOf_of_two_digits hFlen hF]
  unfold normalizeToEnglish
  rw [hstrip]
  have hhc : (g ++ ',' :: F).contains ',' = true :=
    contains_eq_true_iff.2 (List.mem_append.2 (Or.inr (List.mem_cons_self _ _)))
  by_cases hgd : '.' ∈ g
  · have hhd : (g ++ ',' :: F).contains '.' = true :=
      contains_eq_true_iff.2 (List.mem_append.2 (Or.inl hgd))
    have hlastc : jsLastIndexOf ',' (g ++ ',' :: F) = (g.length : Int) := by
      rw [jsLastIndexOf_append, if_pos (List.mem_cons_self _ _), jsLastIndexOf_cons,
        jsLastIndexOf_of_not_mem hcomF, if_neg (by norm_num)]
      norm_num
    have hlastd : jsLastIndexOf '.' (g ++ ',' :: F) = jsLastIndexOf '.' g := by
      rw [jsLastIndexOf_append, if_neg]
      intro hm
      rcases List.mem_cons.1 hm with h | h
      · exact absurd h.symm (by decide)
      · exact hdotF h
    have hcmp : jsLastIndexOf ',' (g ++ ',' :: F) > jsLastIndexOf '.' (g ++ ',' :: F) := by
      rw [hlastc, hlastd]
      exact jsLastIndexOf_lt_length
    simp only [normCore, if_neg hne, hhc, hhd, Bool.and_self, if_true]
    rw [if_pos hcmp, hfilterdot, hsplitc]
  · have hhd : (g ++ ',' :: F).contains '.' = false := by
      apply contains_eq_false
      intro a ha he
      rcases List.mem_append.1 ha with h | h
      · exact hgd (he ▸ h)
      · rcases List.mem_cons.1 h with h | h
        · exact absurd (he ▸ h) (by decide)
        · exact hdotF (he ▸ h)
    simp only [normCore, if_neg hne, hhc, hhd, Bool.and_false, Bool.false_eq_true,
      if_false, Bool.not_false, Bool.and_true, if_true]
    rw [hfilterdot, hsplitc]

/-! ## Claim C2: the round-trip property -/

theorem formatEsAr_zero :
    formatEsAr ('0' :: '.' :: '0' :: '0' :: []) = '0' :: ',' :: '0' :: '0' :: [] := by
  have hparse := jsParseDecimal_canonical (I := ['0']) (F := ['0', '0'])
    (by simp) (by decide) (by decide) rfl
  have hq : ((charsToNat ['0'] : ℚ) + (charsToNat ['0', '0'] : ℚ) / 10 ^ 2) = 0 := by
    rw [show charsToNat ['0'] = 0 from by decide,
      show charsToNat ['0', '0'] = 0 from by decide]
    norm_num
  have hnum : jsNumber ('0' :: '.' :: '0' :: '0' :: []) = some 0 := by
    unfold jsNumber
    rw [show ('0' :: '.' :: '0' :: '0' :: []) = ['0'] ++ '.' :: ['0', '0'] from rfl,
      hparse, hq]
    simp [roundDoubleChecked]
  have hm : ⌊(0 : ℚ) * 100 + 1 / 2⌋ = 0 := by
    rw [Int.floor_eq_iff]
    norm_num
  have hfmt : intlFormatEsAr 0 = '0' :: ',' :: '0' :: '0' :: [] := by
    unfold intlFormatEsAr
    rw [if_neg (by norm_num)]
    unfold intlFormatEsArAbs
    rw [hm]
    decide
  unfold formatEsAr
  rw [if_neg (by simp), hnum]
  show intlFormatEsAr 0 = '0' :: ',' :: '0' :: '0' :: []
  rw [hfmt]

/-- C2 counterexample: `"00.00"` matches `\d+\.\d{2}` (the claim allows an
    arbitrary digit sequence as integer part), but
    `toCanonical(toDisplay("00.00"))` is `"0.00"`, not `"00.00"`: `Number`
    collapses the leading zeros, so the round trip fails as stated. -/
theorem spec_c2_cex :
    normalizeToEnglish (formatEsAr "00.00".toList) = "0.00".toList ∧
    normalizeToEnglish (formatEsAr "00.00".toList) ≠ "00.00".toList := by
  have hparse := jsParseDecimal_canonical (I := ['0', '0']) (F := ['0', '0'])
    (by simp) (by decide) (by decide) rfl
  have hq : ((charsToNat ['0', '0'] : ℚ) + (charsToNat ['0', '0'] : ℚ) / 10 ^ 2) = 0 := by
    rw [show charsToNat ['0', '0'] = 0 from by decide]
    norm_num
  have hnum : jsNumber "00.00".toList = some 0 := by
    unfold jsNumber
    rw [show "00.00".toList = ['0', '0'] ++ '.' :: ['0', '0'] from by decide,
      hparse, hq]
    simp [roundDoubleChecked]
  have hm : ⌊(0 : ℚ) * 100 + 1 / 2⌋ = 0 := by
    rw [Int.floor_eq_iff]
    norm_num
  have hfmt : intlFormatEsAr 0 = '0' :: ',' :: '0' :: '0' :: [] := by
    unfold intlFormatEsAr
    rw [if_neg (by norm_num)]
    unfold intlFormatEsArAbs
    rw [hm]
    decide
  have hfm : formatEsAr "00.00".toList = '0' :: ',' :: '0' :: '0' :: [] := by
    unfold formatEsAr
    rw [if_neg (by decide), hnum]
    show intlFormatEsAr 0 = '0' :: ',' :: '0' :: '0' :: []
    rw [hfmt]
  rw [hfm]
  constructor
  · decide
  · decide

/-- The display of a canonical value `I ++ "." ++ F` with no leading zero and
    at most 13 integer digits: the integer digits (grouped with `'.'` from 5
    digits on), the decimal comma, and the two fraction digits unchanged. -/
theorem formatEsAr_canonical {I F : List Char} (hIne : I ≠ [])
    (hI : ∀ c ∈ I, jsIsDigit c = true)
    (hlz : I = ['0'] ∨ I.headD ' ' ≠ '0')
    (hIlen : I.length ≤ 13)
    (hF : ∀ c ∈ F, jsIsDigit c = true) (hFlen : F.length = 2) :
    formatEsAr (I ++ '.' :: F) =
      (if 5 ≤ I.length then groupThrees I else I) ++ ',' :: F := by
  have hnF100 : charsToNat F < 100 := by
    have h := charsToNat_lt hF
    rw [hFlen] at h
    norm_num at h
    exact h
  by_cases hN0 : 100 * charsToNat I + charsToNat F = 0
  · have hnI0 : charsToNat I = 0 := by omega
    have hnF0 : charsToNat F = 0 := by omega
    have hI0 : I = ['0'] := charsToNat_eq_zero hIne hI hlz hnI0
    have hF0 : F = ['0', '0'] := by
      obtain ⟨a, b, rfl⟩ := List.length_eq_two.1 hFlen
      have ha := hF a (by simp)
      have hb := hF b (by simp)
      rw [charsToNat_two] at hnF0
      have hva : charDigitVal a = 0 := by omega
      have hvb : charDigitVal b = 0 := by omega
      have hA : a = '0' := by
        have := natDigitChar_charDigitVal ha
        rw [hva] at this
        exact this.symm
      have hB : b = '0' := by
        have := natDigitChar_charDigitVal hb
        rw [hvb] at this
        exact this.symm
      rw [hA, hB]
    rw [hI0, hF0]
    rw [if_neg (by decide : ¬5 ≤ (['0'] : List Char).length)]
    exact formatEsAr_zero
  · have hNpos : 0 < 100 * charsToNat I + charsToNat F := by omega
    set N := 100 * charsToNat I + charsToNat F with hN
    have hparse := jsParseDecimal_canonical hIne hI hF hFlen
    have hqval : (charsToNat I : ℚ) + (charsToNat F : ℚ) / 10 ^ 2 = (N : ℚ) / 100 := by
      rw [hN]
      push_cast
      field_simp
      ring
    have hIlt : charsToNat I < 10 ^ 13 :=
      lt_of_lt_of_le (charsToNat_lt hI) (pow_le_pow_right (by norm_num) hIlen)
    have hNlt : N < 10 ^ 15 := by
      have h13 : (10 : ℕ) ^ 13 = 10000000000000 := by norm_num
      have h15 : (10 : ℕ) ^ 15 = 1000000000000000 := by norm_num
      rw [hN, h15]
      rw [h13] at hIlt
      omega
    have hqlo : 1 / 100 ≤ (N : ℚ) / 100 := by
      have h1 : (1 : ℚ) ≤ (N : ℚ) := by exact_mod_cast hNpos
      linarith
    have hqhi : (N : ℚ) / 100 < 2 ^ (44 : ℕ) := by
      rw [div_lt_iff (by norm_num : (0 : ℚ) < 100)]
      calc (N : ℚ) < 10 ^ 15 := by exact_mod_cast hNlt
        _ ≤ 2 ^ (44 : ℕ) * 100 := by norm_num
    obtain ⟨d, hrd, hdist, hdnn⟩ := roundDoubleChecked_near hqlo hqhi
    have hne : I ++ '.' :: F ≠ [] := by simp
    have hnum : jsNumber (I ++ '.' :: F) = some d := by
      unfold jsNumber
      rw [hparse, hqval]
      simpa using hrd
    have hfloor : ⌊d * 100 + 1 / 2⌋ = (N : ℤ) := floor_cents hdist
    unfold formatEsAr
    rw [if_neg hne, hnum]
    show intlFormatEsAr d = (if 5 ≤ I.length then groupThrees I else I) ++ ',' :: F
    unfold intlFormatEsAr
    rw [if_neg (not_lt.2 hdnn)]
    unfold intlFormatEsArAbs
    rw [hfloor, show ((N : ℤ)).toNat = N from by simp]
    have hdiv : N / 100 = charsToNat I := by omega
    have hfrac : intlFracTwo N = F := by
      rw [hN]
      exact intlFracTwo_of hF hFlen (charsToNat I)
    rw [hdiv, hfrac]
    have hIrt : natToChars (charsToNat I) = I := natToChars_charsToNat hIne hI hlz
    unfold intlGroupEsAr
    rw [hIrt]

/-- C2 (amended): round trip `toCanonical(toDisplay(c)) == c` for every
    canonical `c = I ++ "." ++ F` matching `\d+\.\d{2}` whose integer part `I`
    carries no leading zero (or is exactly `"0"`) and has at most 13 digits
    (so that the value survives the binary64 `Number` conversion exactly; with
    leading zeros `Number` collapses them, and beyond roughly 15 significant
    digits the double is too coarse to recover every cent value). -/
theorem spec_c2 {I F : List Char} (hIne : I ≠ [])
    (hI : ∀ c ∈ I, jsIsDigit c = true)
    (hlz : I = ['0'] ∨ I.headD ' ' ≠ '0')
    (hIlen : I.length ≤ 13)
    (hF : ∀ c ∈ F, jsIsDigit c = true) (hFlen : F.length = 2) :
    normalizeToEnglish (formatEsAr (I ++ '.' :: F)) = I ++ '.' :: F := by
  rw [formatEsAr_canonical hIne hI hlz hIlen hF hFlen]
  have hIdots : ∀ c ∈ I, c ≠ '.' := fun c hc => jsIsDigit_ne_dot (hI c hc)
  by_cases hglen : 5 ≤ I.length
  · rw [if_pos hglen]
    refine norm_grouped (groupThrees_filter hIdots) ?_ hIne hI hFlen hF
    intro c hc
    rcases groupThrees_mem hc with hm | he
    · exact Or.inl (hI c hm)
    · exact Or.inr he
  · rw [if_neg hglen]
    refine norm_grouped ?_ (fun c hc => Or.inl (hI c hc)) hIne hI hFlen hF
    exact List.filter_eq_self.2 fun a ha => bne_iff_ne.2 (hIdots a ha)

/-- C2 witness: the amended round trip at the concrete canonical value
    `"1234.50"` (no leading zero, 4 integer digits). -/
theorem spec_c2_witness :
    normalizeToEnglish (formatEsAr "1234.50".toList) = "1234.50".toList :=
  spec_c2 (I := ['1', '2', '3', '4']) (F := ['5', '0']) (by decide) (by decide)
    (by decide) (by decide) (by decide) (by decide)

/-! ## Claim C6: the display formatter

The claim states `toDisplay("1234.5") == "1.234,50"`.  Under the embedded
`Intl.NumberFormat("es-AR")` semantics (CLDR es-AR locale data with
`minimumGroupingDigits = 2`), a 4-digit integer part is *not* grouped:
`formatEsAr "1234.5"` is `"1234,50"`, and the grouping dot only appears from
5 integer digits on (`formatEsAr "12345.5" = "12.345,50"`).  The remaining
content of the claim — `','` as decimal separator, exactly two fraction
digits, empty maps to empty, unparseable values pass through — holds. -/

theorem formatEsAr_1234_5 : formatEsAr "1234.5".toList = "1234,50".toList := by
  have hsplit : "1234.5".toList = ['1', '2', '3', '4'] ++ '.' :: ['5'] := by decide
  have hparse := jsParseDecimal_split (I := ['1', '2', '3', '4']) (F := ['5'])
    (by simp) (by decide) (by decide)
  have hqval : ((charsToNat ['1', '2', '3', '4'] : ℚ) +
      (charsToNat ['5'] : ℚ) / 10 ^ (['5'] : List Char).length) = (123450 : ℚ) / 100 := by
    rw [show charsToNat ['1', '2', '3', '4'] = 1234 from by decide,
      show charsToNat ['5'] = 5 from by decide,
      show (['5'] : List Char).length = 1 from rfl]
    norm_num
  obtain ⟨d, hrd, hdist, hdnn⟩ := roundDoubleChecked_near
    (q := (123450 : ℚ) / 100) (by norm_num) (by norm_num)
  have hnum : jsNumber "1234.5".toList = some d := by
    unfold jsNumber
    rw [hsplit, hparse, hqval]
    simpa using hrd
  have hfloor : ⌊d * 100 + 1 / 2⌋ = ((123450 : ℕ) : ℤ) := by
    apply floor_cents
    exact_mod_cast hdist
  unfold formatEsAr
  rw [if_neg (by decide), hnum]
  show intlFormatEsAr d = "1234,50".toList
  unfold intlFormatEsAr
  rw [if_neg (not_lt.2 hdnn)]
  unfold intlFormatEsArAbs
  rw [hfloor]
  decide

theorem formatEsAr_12345_5 : formatEsAr "12345.5".toList = "12.345,50".toList := by
  have hsplit : "12345.5".toList = ['1', '2', '3', '4', '5'] ++ '.' :: ['5'] := by decide
  have hparse := jsParseDecimal_split (I := ['1', '2', '3', '4', '5']) (F := ['5'])
    (by simp) (by decide) (by decide)
  have hqval : ((charsToNat ['1', '2', '3', '4', '5'] : ℚ) +
      (charsToNat ['5'] : ℚ) / 10 ^ (['5'] : List Char).length) = (1234550 : ℚ) / 100 := by
    rw [show charsToNat ['1', '2', '3', '4', '5'] = 12345 from by decide,
      show charsToNat ['5'] = 5 from by decide,
      show (['5'] : List Char).length = 1 from rfl]
    norm_num
  obtain ⟨d, hrd, hdist, hdnn⟩ := roundDoubleChecked_near
    (q := (1234550 : ℚ) / 100) (by norm_num) (by norm_num)
  have hnum : jsNumber "12345.5".toList = some d := by
    unfold jsNumber
    rw [hsplit, hparse, hqval]
    simpa using hrd
  have hfloor : ⌊d * 100 + 1 / 2⌋ = ((1234550 : ℕ) : ℤ) := by
    apply floor_cents
    exact_mod_cast hdist
  unfold formatEsAr
  rw [if_neg (by decide), hnum]
  show intlFormatEsAr d = "12.345,50".toList
  unfold intlFormatEsAr
  rw [if_neg (not_lt.2 hdnn)]
  unfold intlFormatEsArAbs
  rw [hfloor]
  decide

/-- C6 counterexample: at the claim's own example input, the formatter yields
    `"1234,50"` — es-AR locale data does not group a 4-digit integer part
    (`minimumGroupingDigits = 2`) — so `toDisplay("1234.5")` is not
    `"1.234,50"` and the claim as stated is false. -/
theorem spec_c6_cex :
    formatEsAr "1234.5".toList = "1234,50".toList ∧
    formatEsAr "1234.5".toList ≠ "1.234,50".toList := by
  refine ⟨formatEsAr_1234_5, ?_⟩
  rw [formatEsAr_1234_5]
  decide

/-- C6 (amended): `toDisplay` (`formatEsAr`) renders per the Spanish-Argentina
    convention with `','` as decimal separator and exactly two fraction digits,
    but with `'.'` thousands grouping (in groups of three) applied only from 5
    integer digits on, per the es-AR locale data's minimum of 2 grouping
    digits: `toDisplay("1234.5") == "1234,50"` (not `"1.234,50"`) while
    `toDisplay("12345.5") == "12.345,50"`; in general a canonical
    `I ++ "." ++ F` (no leading zero, at most 13 integer digits) displays as
    the grouped integer digits, `','`, and the two fraction digits unchanged;
    the empty canonical maps to the empty display text; and any value whose
    `Number` conversion is non-finite or unparseable passes through
    unchanged. -/
theorem spec_c6 :
    formatEsAr "".toList = "".toList ∧
    formatEsAr "1234.5".toList = "1234,50".toList ∧
    formatEsAr "12345.5".toList = "12.345,50".toList ∧
    (∀ I F : List Char, I ≠ [] → (∀ c ∈ I, jsIsDigit c = true) →
      (I = ['0'] ∨ I.headD ' ' ≠ '0') → I.length ≤ 13 →
      (∀ c ∈ F, jsIsDigit c = true) → F.length = 2 →
      formatEsAr (I ++ '.' :: F) =
        (if 5 ≤ I.length then groupThrees I else I) ++ ',' :: F) ∧
    (∀ eng : List Char, jsNumber eng = none → formatEsAr eng = eng) := by
  refine ⟨rfl, formatEsAr_1234_5, formatEsAr_12345_5, ?_, ?_⟩
  · intro I F hIne hI hlz hIlen hF hFlen
    exact formatEsAr_canonical hIne hI hlz hIlen hF hFlen
  · intro eng hnone
    unfold formatEsAr
    by_cases he : eng = []
    · exfalso
      subst he
      have h0 : jsNumber [] = some 0 := by
        unfold jsNumber jsParseDecimal
        rw [if_pos rfl]
        simp [roundDoubleChecked]
      rw [h0] at hnone
      exact Option.noConfusion hnone
    · rw [if_neg he, hnone]

/-- C6 witness: the amended general rendering clause at the concrete canonical
    value `"987654.21"` (6 integer digits, so grouping applies:
    `toDisplay("987654.21") == "987.654,21"`). -/
theorem spec_c6_witness :
    formatEsAr (['9', '8', '7', '6', '5', '4'] ++ '.' :: ['2', '1']) =
      (if 5 ≤ (['9', '8', '7', '6', '5', '4'] : List Char).length
        then groupThrees ['9', '8', '7', '6', '5', '4']
        else ['9', '8', '7', '6', '5', '4']) ++ ',' :: ['2', '1'] :=
  spec_c6.2.2.2.1 ['9', '8', '7', '6', '5', '4'] ['2', '1'] (by decide) (by decide)
    (by decide) (by decide) (by decide) (by decide)

/-! ## Claim C9: the visible/shadow field pair of `setupMoneyInput`

`setupMoneyInput` mirrors the visible text field into a hidden shadow field
(the one carrying the form `name`, hence the one transmitted).  The three event
handlers installed on lines 308–340 are embedded as a step function on the
pair of field values:

* `input`: strip `[^0-9.,]` from the raw text, write it back, and recompute
  `hidden = normalizeToEnglish(visible)`;
* `blur`: empty visible text clears the shadow; otherwise the shadow gets the
  canonical value and the visible field is reformatted with `formatEsAr`;
* `submit`: like `blur` but without reformatting the visible field. -/

structure MoneyState where
  visible : List Char
  hidden : List Char

inductive MoneyEvent where
  | input : List Char → MoneyEvent
  | blur : MoneyEvent
  | submit : MoneyEvent

/-- The raw text of the visible field at the moment the event fires
    (for `input`, the text just typed). -/
def moneyEventText : MoneyState → MoneyEvent → List Char
  | _, .input raw => raw
  | s, .blur => s.visible
  | s, .submit => s.visible

/-- One handler execution of `setupMoneyInput`. -/
def moneyStep : MoneyState → MoneyEvent → MoneyState
  | _, .input raw =>
    let cleaned := raw.filter isNumChar
    { visible := cleaned, hidden := normalizeToEnglish cleaned }
  | s, .blur =>
    if s.visible = [] then { s with hidden := [] }
    else
      { visible := formatEsAr (normalizeToEnglish s.visible),
        hidden := normalizeToEnglish s.visible }
  | s, .submit =>
    if s.visible = [] then { s with hidden := [] }
    else { s with hidden := normalizeToEnglish s.visible }

theorem norm_filter (raw : List Char) :
    normalizeToEnglish (raw.filter isNumChar) = normalizeToEnglish raw := by
  unfold normalizeToEnglish getNumericString
  rw [List.filter_filter]
  congr 1
  simp only [Bool.and_self]

theorem norm_empty_or_canonical (t : List Char) :
    normalizeToEnglish t = [] ∨ canonicalB (normalizeToEnglish t) = true := by
  rcases normCore_shape (getNumericString t) with ⟨_, h2⟩ | ⟨I, F, hIF, hIne, hI, hFlen, hF⟩
  · exact Or.inl h2
  · right
    unfold normalizeToEnglish
    rw [hIF]
    exact canonicalB_intro hIne hI hFlen hF

/-- C9: after every `input`, `blur` or `submit` handler runs, the shadow
    (transmitted) field equals `normalizeToEnglish` of the visible field's raw
    text at the moment of the event — hence it is always either empty or a
    canonical value matching `\d+\.\d{2}`. -/
theorem spec_c9 (s : MoneyState) (e : MoneyEvent) :
    (moneyStep s e).hidden = normalizeToEnglish (moneyEventText s e) ∧
      ((moneyStep s e).hidden = [] ∨ canonicalB ((moneyStep s e).hidden) = true) := by
  cases e with
  | input raw =>
    refine ⟨norm_filter raw, ?_⟩
    exact norm_empty_or_canonical _
  | blur =>
    by_cases hv : s.visible = []
    · simp only [moneyStep, moneyEventText, if_pos hv, hv]
      refine ⟨?_, Or.inl rfl⟩
      decide
    · simp only [moneyStep, moneyEventText, if_neg hv]
      exact ⟨trivial, norm_empty_or_canonical _⟩
  | submit =>
    by_cases hv : s.visible = []
    · simp only [moneyStep, moneyEventText, if_pos hv, hv]
      refine ⟨?_, Or.inl rfl⟩
      decide
    · simp only [moneyStep, moneyEventText, if_neg hv]
      exact ⟨trivial, norm_empty_or_canonical _⟩

/-! ## Claim C10: `applyState` of `setupSectionToggle` -/

structure FieldState where
  value : List Char
  disabled : Bool
deriving DecidableEq

/-- The DOM visible to `setupSectionToggle`, as a partial map from element ids
    to form-field state (`none` models `document.getElementById` = `null`). -/
abbrev Dom := String → Option FieldState

/-- Set `field.value` when the element exists (`if (field) field.value = v`). -/
def domSetValue (dom : Dom) (id : String) (v : List Char) : Dom :=
  fun k => if k = id then (dom id).map (fun f => { f with value := v }) else dom k

/-- Set or remove the `disabled` attribute when the element exists. -/
def domSetDisabled (dom : Dom) (id : String) (b : Bool) : Dom :=
  fun k => if k = id then (dom id).map (fun f => { f with disabled := b }) else dom k

/-- `clearField(id)` (lines 32–42): empty the field's value and the value of
    its `id + "_hidden"` counterpart, when those elements exist. -/
def clearField (dom : Dom) (id : String) : Dom :=
  domSetValue (domSetValue dom id []) (id ++ "_hidden") []

/-- `applyState` (lines 44–67): toggle on — re-enable every listed field
    (values untouched); toggle off — disable every listed field and clear it
    via `clearField`.  The `classList` mutations of the section element are not
    referenced by the claim and are not modelled. -/
def applyState (active : Bool) (fieldIds : List String) (dom : Dom) : Dom :=
  if active then
    fieldIds.foldl (fun d id => domSetDisabled d id false) dom
  else
    fieldIds.foldl (fun d id => clearField (domSetDisabled d id true) id) dom

/-- The off-branch postcondition for a listed field id: if the element exists,
    it is disabled and its value is empty. -/
def GoodOff (d : Dom) (id : String) : Prop :=
  ∀ f, d id = some f → f.disabled = true ∧ f.value = []

/-- The off-branch postcondition for the `_hidden` counterpart. -/
def GoodHid (d : Dom) (id : String) : Prop :=
  ∀ f, d (id ++ "_hidden") = some f → f.value = []

/-- The on-branch postcondition: if the element exists it is enabled. -/
def GoodOn (d : Dom) (id : String) : Prop :=
  ∀ f, d id = some f → f.disabled = false

theorem ne_append_hidden (id : String) : id ≠ id ++ "_hidden" := by
  intro e
  have hlen := congrArg String.length e
  rw [String.length_append] at hlen
  have h7 : ("_hidden" : String).length = 7 := by decide
  omega

theorem domSetValue_same {dom : Dom} {id : String} {v : List Char} :
    domSetValue dom id v id = (dom id).map (fun f => { f with value := v }) := by
  simp [domSetValue]

theorem domSetValue_other {dom : Dom} {id k : String} {v : List Char} (h : k ≠ id) :
    domSetValue dom id v k = dom k := by
  simp [domSetValue, h]

theorem domSetDisabled_same {dom : Dom} {id : String} {b : Bool} :
    domSetDisabled dom id b id = (dom id).map (fun f => { f with disabled := b }) := by
  simp [domSetDisabled]

theorem domSetDisabled_other {dom : Dom} {id k : String} {b : Bool} (h : k ≠ id) :
    domSetDisabled dom id b k = dom k := by
  simp [domSetDisabled, h]

theorem offStep_self {d : Dom} {id : String} :
    GoodOff (clearField (domSetDisabled d id true) id) id := by
  intro f hf
  unfold clearField at hf
  rw [domSetValue_other (ne_append_hidden id), domSetValue_same,
    domSetDisabled_same] at hf
  rcases hd : d id with _ | f0 <;> rw [hd] at hf
  · exact Option.noConfusion hf
  · simp only [Option.map_some'] at hf
    obtain rfl := Option.some_inj.1 hf
    exact ⟨rfl, rfl⟩

theorem offStep_mono_goodOff {d : Dom} {id id' : String} (h : GoodOff d id) :
    GoodOff (clearField (domSetDisabled d id' true) id') id := by
  intro f hf
  unfold clearField at hf
  by_cases h1 : id = id' ++ "_hidden"
  · subst h1
    rw [domSetValue_same, domSetValue_other (ne_append_hidden id').symm,
      domSetDisabled_other (ne_append_hidden id').symm] at hf
    rcases hd : d (id' ++ "_hidden") with _ | f0 <;> rw [hd] at hf
    · exact Option.noConfusion hf
    · simp only [Option.map_some'] at hf
      obtain rfl := Option.some_inj.1 hf
      obtain ⟨hdis, hval⟩ := h f0 hd
      exact ⟨hdis, rfl⟩
  · rw [domSetValue_other h1] at hf
    by_cases h2 : id = id'
    · subst h2
      rw [domSetValue_same, domSetDisabled_same] at hf
      rcases hd : d id with _ | f0 <;> rw [hd] at hf
      · exact Option.noConfusion hf
      · simp only [Option.map_some'] at hf
        obtain rfl := Option.some_inj.1 hf
        exact ⟨rfl, rfl⟩
    · rw [domSetValue_other h2, domSetDisabled_other h2] at hf
      exact h f hf

theorem offStep_hid_self {d : Dom} {id : String} :
    GoodHid (clearField (domSetDisabled d id true) id) id := by
  intro f hf
  unfold clearField at hf
  rw [domSetValue_same] at hf
  rcases hd : domSetValue (domSetDisabled d id true) id [] (id ++ "_hidden")
      with _ | f0 <;> rw [hd] at hf
  · exact Option.noConfusion hf
  · simp only [Option.map_some'] at hf
    obtain rfl := Option.some_inj.1 hf
    rfl

theorem offStep_mono_goodHid {d : Dom} {id id' : String} (h : GoodHid d id) :
    GoodHid (clearField (domSetDisabled d id' true) id') id := by
  intro f hf
  unfold clearField at hf
  by_cases h1 : id ++ "_hidden" = id' ++ "_hidden"
  · rw [h1, domSetValue_same] at hf
    rcases hd : domSetValue (domSetDisabled d id' true) id' [] (id' ++ "_hidden")
        with _ | f0 <;> rw [hd] at hf
    · exact Option.noConfusion hf
    · simp only [Option.map_some'] at hf
      obtain rfl := Option.some_inj.1 hf
      rfl
  · rw [domSetValue_other h1] at hf
    by_cases h2 : id ++ "_hidden" = id'
    · rw [h2, domSetValue_same] at hf
      rcases hd : domSetDisabled d id' true id' with _ | f0 <;> rw [hd] at hf
      · exact Option.noConfusion hf
      · simp only [Option.map_some'] at hf
        obtain rfl := Option.some_inj.1 hf
        rfl
    · rw [domSetValue_other h2, domSetDisabled_other h2] at hf
      exact h f hf

theorem onStep_self {d : Dom} {id : String} :
    GoodOn (domSetDisabled d id false) id := by
  intro f hf
  rw [domSetDisabled_same] at hf
  rcases hd : d id with _ | f0 <;> rw [hd] at hf
  · exact Option.noConfusion hf
  · simp only [Option.map_some'] at hf
    obtain rfl := Option.some_inj.1 hf
    rfl

theorem onStep_mono_goodOn {d : Dom} {id id' : String} (h : GoodOn d id) :
    GoodOn (domSetDisabled d id' false) id := by
  intro f hf
  by_cases h2 : id = id'
  · subst h2
    rw [domSetDisabled_same] at hf
    rcases hd : d id with _ | f0 <;> rw [hd] at hf
    · exact Option.noConfusion hf
    · simp only [Option.map_some'] at hf
      obtain rfl := Option.some_inj.1 hf
      rfl
  · rw [domSetDisabled_other h2] at hf
    exact h f hf

theorem onStep_value {d : Dom} {id' : String} (k : String) :
    ((domSetDisabled d id' false) k).map FieldState.value =
      (d k).map FieldState.value := by
  by_cases h : k = id'
  · subst h
    rw [domSetDisabled_same]
    rcases d k with _ | f0 <;> simp
  · rw [domSetDisabled_other h]

theorem foldOff_goodOff : ∀ (ids : List String) (d : Dom) (id : String), GoodOff d id →
    GoodOff (ids.foldl (fun d i => clearField (domSetDisabled d i true) i) d) id
  | [], _, _, h => h
  | _ :: ids, _, id, h => foldOff_goodOff ids _ id (offStep_mono_goodOff h)

theorem foldOff_goodHid : ∀ (ids : List String) (d : Dom) (id : String), GoodHid d id →
    GoodHid (ids.foldl (fun d i => clearField (domSetDisabled d i true) i) d) id
  | [], _, _, h => h
  | _ :: ids, _, id, h => foldOff_goodHid ids _ id (offStep_mono_goodHid h)

theorem foldOn_goodOn : ∀ (ids : List String) (d : Dom) (id : String), GoodOn d id →
    GoodOn (ids.foldl (fun d i => domSetDisabled d i false) d) id
  | [], _, _, h => h
  | _ :: ids, _, id, h => foldOn_goodOn ids _ id (onStep_mono_goodOn h)

theorem foldOff_mem : ∀ (ids : List String) (d : Dom) (id : String), id ∈ ids →
    GoodOff (ids.foldl (fun d i => clearField (domSetDisabled d i true) i) d) id ∧
      GoodHid (ids.foldl (fun d i => clearField (domSetDisabled d i true) i) d) id
  | i :: ids, d, id, hm => by
    rcases List.mem_cons.1 hm with rfl | hmem
    · exact ⟨foldOff_goodOff ids _ id offStep_self, foldOff_goodHid ids _ id offStep_hid_self⟩
    · exact foldOff_mem ids _ id hmem

theorem foldOn_mem : ∀ (ids : List String) (d : Dom) (id : String), id ∈ ids →
    GoodOn (ids.foldl (fun d i => domSetDisabled d i false) d) id
  | i :: ids, d, id, hm => by
    rcases List.mem_cons.1 hm with rfl | hmem
    · exact foldOn_goodOn ids _ id onStep_self
    · exact foldOn_mem ids _ id hmem

theorem foldOn_value : ∀ (ids : List String) (d : Dom) (k : String),
    ((ids.foldl (fun d i => domSetDisabled d i false) d) k).map FieldState.value =
      (d k).map FieldState.value
  | [], _, _ => rfl
  | _ :: ids, d, k => by
    rw [List.foldl_cons, foldOn_value ids _ k, onStep_value]

/-- C10: whenever the toggle is off, every field in the section's field-id list
    is disabled and both the field and its `_hidden` counterpart (when present)
    are set to the empty string; whenever the toggle is on, every listed field
    is re-enabled and no field value is modified (frame: all values unchanged
    by the on branch). -/
theorem spec_c10 (dom : Dom) (ids : List String) :
    (∀ id ∈ ids,
      (∀ f, applyState false ids dom id = some f → f.disabled = true ∧ f.value = []) ∧
      (∀ f, applyState false ids dom (id ++ "_hidden") = some f → f.value = [])) ∧
    (∀ id ∈ ids, ∀ f, applyState true ids dom id = some f → f.disabled = false) ∧
    (∀ k, (applyState true ids dom k).map FieldState.value =
      (dom k).map FieldState.value) := by
  refine ⟨?_, ?_, ?_⟩
  · intro id hm
    obtain ⟨hoff, hhid⟩ := foldOff_mem ids dom id hm
    exact ⟨hoff, hhid⟩
  · intro id hm
    exact foldOn_mem ids dom id hm
  · intro k
    exact foldOn_value ids dom k

/-- A concrete DOM for the C10 witness: the litros field and its shadow, both
    present with values and enabled. -/
def dom0 : Dom := fun k =>
  if k = "id_litros" then some { value := "10".toList, disabled := false }
  else if k = "id_litros_hidden" then some { value := "10.00".toList, disabled := false }
  else none

/-- C10 witness: the off branch at a concrete DOM and field list leaves the
    listed field disabled with an empty value. -/
theorem spec_c10_witness :
    applyState false ["id_litros"] dom0 "id_litros" =
        some { value := [], disabled := true } ∧
      ({ value := [], disabled := true } : FieldState).disabled = true ∧
      ({ value := [], disabled := true } : FieldState).value = [] := by
  have happ : applyState false ["id_litros"] dom0 "id_litros" =
      some { value := [], disabled := true } := by decide
  exact ⟨happ, ((spec_c10 dom0 ["id_litros"]).1 "id_litros" (by decide)).1 _ happ⟩
